import Mathlib

/-!
# Verification of the `epicycle` timing-wheel repository

This file gives a shallow embedding, in Lean 4, of the two timing-wheel
implementations of the repository:

* `src/timing_wheel/_impl.py` — the deque-rotation wheel (`TimingWheel`
  over a `collections.deque` of doubly-linked lists), embedded in namespace
  `timing_wheel`;
* `src/epicycle/_impl.py` — the modulo-indexed wheel, embedded in namespace
  `epicycle`.

Buckets (`_List` in the Python source) are embedded at two levels:

* a pointer-level heap model of `_Cell` / `_List` (fields `value`,
  `successor`, `predecessor`; operations `_Cell.add`, `_Cell.remove`,
  `_List.add_to_front`, `_List.consume`, `make_list`) used to settle the
  claims about the intrusive ring itself;
* an abstract model in which a bucket's contents are the Lean list of its
  payloads in ring order (head-to-tail, i.e. most-recently-pushed first),
  used for the wheel-level claims.  `add_to_front` is list `cons` and
  `consume` yields the list front-to-back and leaves the bucket empty;
  the pointer-level theorems justify exactly this abstraction.

Machine integers: Python integers are unbounded, so times, intervals and
ids are `Int` / `Nat` with no wrap-around.  Failure paths (Python
`IndexError` from deque indexing, `AssertionError` from the `tick`
assertion, `KeyError` from `del`) are modelled with `Option` / explicit
error values; crucially, a failing call returns the state exactly as the
Python object would be left (e.g. `add` increments the id counter *before*
the indexing that can raise).
-/

namespace timing_wheel

/-- Abstract model of `_List` (a bucket): `deadline` is the `deadline`
attribute, `entries` are the payloads `(request_id, action)` of the linked
cells in ring order from `head` to `tail`.  Actions are opaque and
represented by a `Nat` label.  `add_to_front` conses; `consume` yields the
list front-to-back (most recently inserted first) and empties it. -/
structure Bucket where
  deadline : Int
  entries : List (Nat × Nat)
deriving Repr, DecidableEq

/-- Abstract state of `timing_wheel.TimingWheel`: `maxInterval`, `time`,
`lastId` mirror `_max_interval`, `_time`, `_last_id`; `schedule` is the
deque of buckets, front (`popleft` end) first; `actions` is the key set of
the `_actions` dict (`request_id -> cell`): the model resolves a cell
reference by its `request_id`, which in every reachable state identifies
the cell uniquely. -/
structure TimingWheel where
  maxInterval : Nat
  time : Int
  lastId : Nat
  schedule : List Bucket
  actions : List Nat
deriving Repr, DecidableEq

/-- `TimingWheel(max_interval, time)` after `__attrs_post_init__`:
`_schedule = deque(make_list(i) for i in range(max_interval))`. -/
def mkWheel (maxInterval : Nat) (time : Int) : TimingWheel :=
  { maxInterval := maxInterval
    time := time
    lastId := 0
    schedule := (List.range maxInterval).map (fun i : Nat => (⟨(i : Int), []⟩ : Bucket))
    actions := [] }

/-- `TimingWheel.add(interval, f)`.  Mirrors the Python statement order:
the id counter is incremented (`self._make_id()`) *before*
`self._schedule[interval]` is evaluated, so a failing add still bumps
`_last_id`.  Python deque indexing accepts `-len <= i < len` and wraps
negative indices (`schedule[-1]` is the last bucket); outside that range it
raises `IndexError`, modelled by `none` (together with the post-raise
state).  On success the bucket's deadline is set to `time + interval`, the
payload is pushed at the front, and the id is recorded in the map. -/
def TimingWheel.add (w : TimingWheel) (interval : Int) (act : Nat) :
    TimingWheel × Option Nat :=
  if -(w.maxInterval : Int) ≤ interval ∧ interval < (w.maxInterval : Int) then
    let idx : Nat := (if interval < 0 then (w.maxInterval : Int) + interval else interval).toNat
    ({ w with
        lastId := w.lastId + 1
        schedule := w.schedule.set idx
          ⟨w.time + interval, (w.lastId + 1, act) :: (w.schedule.getD idx ⟨0, []⟩).entries⟩
        actions := (w.lastId + 1) :: w.actions }, some (w.lastId + 1))
  else
    ({ w with lastId := w.lastId + 1 }, none)

/-- `TimingWheel.remove(request_id)`: if the id is in `_actions`, pop it
and unlink its cell.  In every reachable state the id occurs in exactly
one bucket, so unlinking the cell is removing the unique entry carrying
that id; absent ids are a no-op. -/
def TimingWheel.remove (w : TimingWheel) (rid : Nat) : TimingWheel :=
  if rid ∈ w.actions then
    { w with
        actions := w.actions.filter (fun a => a ≠ rid)
        schedule := w.schedule.map (fun b => ⟨b.deadline, b.entries.filter (fun e => e.1 ≠ rid)⟩) }
  else
    w

/-- One iteration of the `for i in range(offset + 1)` loop of
`TimingWheel.tick`: `popleft` the front bucket, consume it (firing every
entry in ring order and deleting each fired id from `_actions`), set its
`deadline` to the loop index `i`, and append it emptied at the back.
Fired payloads are appended to the accumulator.  (With opaque actions the
interleaving fire/`del` loop has the same net effect as deleting all fired
ids at once; `del` on a present id cannot fail here.  An empty schedule —
impossible for `max_interval ≥ 1` — is a no-op.) -/
def tickStep (acc : TimingWheel × List (Nat × Nat)) (i : Nat) :
    TimingWheel × List (Nat × Nat) :=
  let (w, fired) := acc
  match w.schedule with
  | [] => (w, fired)
  | b :: rest =>
      ({ w with
          schedule := rest ++ [⟨(i : Int), []⟩]
          actions := w.actions.filter (fun a => ! (b.entries.map Prod.fst).contains a) },
       fired ++ b.entries)

/-- `TimingWheel.tick(time)`: `offset = time - self._time`; the
`assert 0 <= offset < self._max_interval` aborts (no state change) when it
fails, modelled by `none`; otherwise the loop runs `offset + 1` times and
finally `self._time = time`.  The second component is `some` of the fired
payloads in firing order. -/
def TimingWheel.tick (w : TimingWheel) (time : Int) :
    TimingWheel × Option (List (Nat × Nat)) :=
  let offset := time - w.time
  if 0 ≤ offset ∧ offset < (w.maxInterval : Int) then
    let r := (List.range (offset.toNat + 1)).foldl tickStep (w, [])
    ({ r.1 with time := time }, some r.2)
  else
    (w, none)

/-- `TimingWheel.when()`: scan indices `0 .. max_interval - 1`, collect the
non-empty buckets, raise `Empty` (here `none`) if there are none, else
return the deadline of the bucket at the *minimum* pending index — which,
the indices being scanned in increasing order, is the first non-empty
bucket. -/
def TimingWheel.when (w : TimingWheel) : Option Int :=
  ((w.schedule.take w.maxInterval).find? (fun b => ! b.entries.isEmpty)).map
    (fun b => b.deadline)

/-- Perform a list of `add` calls in order (discarding the returned ids,
which are `lastId + 1, lastId + 2, …` in call order). -/
def addAll (w : TimingWheel) : List (Int × Nat) → TimingWheel
  | [] => w
  | (d, a) :: rest => addAll (w.add d a).1 rest

/-- The deadlines of the non-empty buckets, in deque order. -/
def nonemptyDeadlines (w : TimingWheel) : List Int :=
  ((w.schedule.take w.maxInterval).filter (fun b => ! b.entries.isEmpty)).map
    (fun b => b.deadline)


/-! ### Characterizing a burst of `add` calls followed by one `tick`

`entriesFor m adds j` predicts the payloads that the call sequence `adds`
(fed to `addAll`, first call allocated request id `m + 1`) deposits in the
bucket at deque index `j`; `bucketAfter` predicts a whole bucket. -/

/-- The entries contributed by the `add` calls `adds` (in call order, each
pair `(delay, action)`) to the bucket at deque index `j`, when the first
call is allocated request id `m + 1`.  Most recent push first, matching
`add_to_front`. -/
def entriesFor (m : Nat) : List (Int × Nat) → Nat → List (Nat × Nat)
  | [], _ => []
  | (d, a) :: rest, j =>
      entriesFor (m + 1) rest j ++ (if d = (j : Int) then [(m + 1, a)] else [])

/-- The bucket at deque index `j` after performing `adds` on `w`: the
deadline is rewritten to `time + j` whenever some add targets index `j`,
and new entries pile up in front of the old ones. -/
def bucketAfter (w : TimingWheel) (adds : List (Int × Nat)) (j : Nat) : Bucket :=
  ⟨if adds.any (fun p => p.1 = (j : Int)) then w.time + (j : Int)
    else (w.schedule.getD j ⟨0, []⟩).deadline,
   entriesFor w.lastId adds j ++ (w.schedule.getD j ⟨0, []⟩).entries⟩

lemma mem_entriesFor {m : Nat} {adds : List (Int × Nat)} {j : Nat}
    {e : Nat × Nat} :
    e ∈ entriesFor m adds j ↔
      ∃ i, ∃ h : i < adds.length,
        e.1 = m + i + 1 ∧ adds[i] = ((j : Int), e.2) := by
  induction adds generalizing m with
  | nil => simp [entriesFor]
  | cons p rest ih =>
    obtain ⟨d, a⟩ := p
    simp only [entriesFor, List.mem_append]
    constructor
    · rintro (hmem | hmem)
      · obtain ⟨i, hi, h1, h2⟩ := ih.1 hmem
        exact ⟨i + 1, by simpa using Nat.succ_lt_succ hi,
          by omega, by simpa using h2⟩
      · by_cases hdj : d = (j : Int)
        · rw [if_pos hdj] at hmem
          simp only [List.mem_singleton] at hmem
          exact ⟨0, by simp, by simp [hmem], by simp [hmem, hdj]⟩
        · rw [if_neg hdj] at hmem
          simp at hmem
    · rintro ⟨i, hi, h1, h2⟩
      match i with
      | 0 =>
        right
        simp only [List.getElem_cons_zero] at h2
        have hd : d = (j : Int) := (Prod.mk.injEq _ _ _ _ ▸ h2).1
        have ha : a = e.2 := (Prod.mk.injEq _ _ _ _ ▸ h2).2
        rw [if_pos hd]
        simp only [List.mem_singleton]
        have : e = (e.1, e.2) := rfl
        rw [this, h1, ha]
      | i' + 1 =>
        left
        refine ih.2 ⟨i', by simpa using Nat.lt_of_succ_lt_succ hi, by omega, ?_⟩
        simpa using h2

lemma entriesFor_id_gt {m : Nat} {adds : List (Int × Nat)} {j : Nat}
    {e : Nat × Nat} (h : e ∈ entriesFor m adds j) : m < e.1 := by
  obtain ⟨i, hi, h1, _⟩ := mem_entriesFor.1 h
  omega

lemma nodup_entriesFor (m : Nat) (adds : List (Int × Nat)) (j : Nat) :
    ((entriesFor m adds j).map Prod.fst).Nodup := by
  induction adds generalizing m with
  | nil => simp [entriesFor]
  | cons p rest ih =>
    obtain ⟨d, a⟩ := p
    simp only [entriesFor, List.map_append]
    refine List.Nodup.append (ih _) ?_ ?_
    · split <;> simp
    · intro x hx hx'
      simp only [List.mem_map] at hx
      obtain ⟨e, he, hxe⟩ := hx
      have hgt : m + 1 < e.1 := entriesFor_id_gt he
      by_cases hdj : d = (j : Int)
      · rw [if_pos hdj] at hx'
        simp only [List.map_cons, List.map_nil, List.mem_singleton] at hx'
        omega
      · rw [if_neg hdj] at hx'
        simp at hx'

lemma entriesFor_disjoint {m : Nat} {adds : List (Int × Nat)} {j j' : Nat}
    (hne : j ≠ j') {e e' : Nat × Nat} (he : e ∈ entriesFor m adds j)
    (he' : e' ∈ entriesFor m adds j') : e.1 ≠ e'.1 := by
  obtain ⟨i, hi, h1, h2⟩ := mem_entriesFor.1 he
  obtain ⟨i', hi', h1', h2'⟩ := mem_entriesFor.1 he'
  intro hcon
  have hii : i = i' := by omega
  subst hii
  rw [h2] at h2'
  have : (j : Int) = (j' : Int) := (Prod.mk.injEq _ _ _ _ ▸ h2').1
  exact hne (by exact_mod_cast this)

lemma nodup_fired_ids (m : Nat) (adds : List (Int × Nat)) :
    ∀ (js : List Nat), js.Nodup →
      ((js.flatMap (fun j => entriesFor m adds j)).map Prod.fst).Nodup := by
  intro js
  induction js with
  | nil => simp
  | cons j rest ih =>
    intro hnd
    simp only [List.flatMap_cons, List.map_append]
    refine List.Nodup.append (nodup_entriesFor m adds j)
      (ih (List.Nodup.of_cons hnd)) ?_
    intro x hx hx'
    simp only [List.mem_map, List.mem_flatMap] at hx hx'
    obtain ⟨e, he, hxe⟩ := hx
    obtain ⟨e', ⟨j', hj', he'⟩, hxe'⟩ := hx'
    have hne : j ≠ j' := by
      rintro rfl
      exact (List.nodup_cons.1 hnd).1 hj'
    exact entriesFor_disjoint hne he he' (hxe.trans hxe'.symm)

lemma getD_set_of_lt {l : List Bucket} {i : Nat} (b : Bucket) (j : Nat)
    (d : Bucket) (hi : i < l.length) :
    (l.set i b).getD j d = if i = j then b else l.getD j d := by
  by_cases hj : j < l.length
  · rw [List.getD_eq_getElem _ _ (by simpa using hj), List.getElem_set]
    split
    · rfl
    · rw [List.getD_eq_getElem _ _ hj]
  · have hij : i ≠ j := by omega
    rw [if_neg hij]
    rw [List.getD_eq_default _ _ (by simpa using Nat.le_of_not_lt hj),
      List.getD_eq_default _ _ (Nat.le_of_not_lt hj)]

/-- What one in-range, non-negative-delay `add` does, in closed form. -/
lemma add_nonneg_delay (w : TimingWheel) (d : Int) (a : Nat)
    (h0 : 0 ≤ d) (h1 : d < (w.maxInterval : Int)) :
    w.add d a =
      ({ w with
          lastId := w.lastId + 1
          schedule := w.schedule.set d.toNat
            ⟨w.time + d,
             (w.lastId + 1, a) :: (w.schedule.getD d.toNat ⟨0, []⟩).entries⟩
          actions := (w.lastId + 1) :: w.actions }, some (w.lastId + 1)) := by
  unfold TimingWheel.add
  rw [if_pos ⟨by omega, h1⟩]
  rw [if_neg (by omega : ¬ d < 0)]

lemma addAll_spec :
    ∀ (adds : List (Int × Nat)) (w : TimingWheel),
      (∀ p ∈ adds, 0 ≤ p.1 ∧ p.1 < (w.maxInterval : Int)) →
      w.schedule.length = w.maxInterval →
      (addAll w adds).maxInterval = w.maxInterval ∧
      (addAll w adds).time = w.time ∧
      (addAll w adds).schedule =
        (List.range w.maxInterval).map (bucketAfter w adds) := by
  intro adds
  induction adds with
  | nil =>
    intro w _ hlen
    refine ⟨rfl, rfl, ?_⟩
    show w.schedule = _
    apply List.ext_getElem
    · simp [hlen]
    · intro i h1 h2
      have hi : i < w.schedule.length := h1
      simp only [List.getElem_map, List.getElem_range, bucketAfter, entriesFor,
        List.any_nil, Bool.false_eq_true, if_false, List.nil_append]
      rw [List.getD_eq_getElem _ _ hi]
  | cons p rest ih =>
    intro w hb hlen
    obtain ⟨d, a⟩ := p
    have hd0 : 0 ≤ d ∧ d < (w.maxInterval : Int) := hb (d, a) (List.mem_cons_self _ _)
    have hadd := add_nonneg_delay w d a hd0.1 hd0.2
    obtain ⟨hN, ht, hs⟩ :=
      ih ({ w with
              lastId := w.lastId + 1
              schedule := w.schedule.set d.toNat
                ⟨w.time + d,
                 (w.lastId + 1, a) ::
                   (w.schedule.getD d.toNat ⟨0, []⟩).entries⟩
              actions := (w.lastId + 1) :: w.actions })
        (fun p hp => hb p (List.mem_cons_of_mem _ hp)) (by simpa using hlen)
    have hstep : addAll w ((d, a) :: rest) =
        addAll ({ w with
              lastId := w.lastId + 1
              schedule := w.schedule.set d.toNat
                ⟨w.time + d,
                 (w.lastId + 1, a) ::
                   (w.schedule.getD d.toNat ⟨0, []⟩).entries⟩
              actions := (w.lastId + 1) :: w.actions }) rest := by
      show addAll (w.add d a).1 rest = _
      rw [hadd]
    rw [hstep]
    refine ⟨hN, ht, ?_⟩
    rw [hs]
    apply List.map_congr_left
    intro j hj
    have hjN : j < w.maxInterval := List.mem_range.1 hj
    have hjlen : j < w.schedule.length := by omega
    have hdlt : d.toNat < w.schedule.length := by omega
    unfold bucketAfter
    simp only []
    rw [getD_set_of_lt _ j _ hdlt]
    rw [Bucket.mk.injEq]
    constructor
    · by_cases hr : rest.any (fun p => p.1 = (j : Int)) = true
      · rw [if_pos hr,
          if_pos (show (((d, a) :: rest).any fun p => decide (p.1 = (j : Int))) = true by
            simp [List.any_cons, hr])]
      · by_cases hdj : d.toNat = j
        · have hdj' : d = (j : Int) := by omega
          rw [if_neg hr, if_pos hdj,
            if_pos (show (((d, a) :: rest).any fun p => decide (p.1 = (j : Int))) = true by
              simp [List.any_cons, hdj'])]
          rw [hdj']
        · have hdj' : ¬ d = (j : Int) := by omega
          rw [if_neg hr, if_neg hdj,
            if_neg (show ¬ (((d, a) :: rest).any fun p => decide (p.1 = (j : Int))) = true by
              simp only [List.any_cons, Bool.or_eq_true, decide_eq_true_eq]
              rintro (hc | hc)
              · exact hdj' hc
              · exact hr hc)]
    · show entriesFor (w.lastId + 1) rest j ++
          (if d.toNat = j
            then (⟨w.time + d,
              (w.lastId + 1, a) ::
                (w.schedule.getD d.toNat ⟨0, []⟩).entries⟩ : Bucket)
            else w.schedule.getD j ⟨0, []⟩).entries =
        (entriesFor (w.lastId + 1) rest j ++
            (if d = (j : Int) then [(w.lastId + 1, a)] else [])) ++
          (w.schedule.getD j ⟨0, []⟩).entries
      by_cases hdj : d.toNat = j
      · have hdj' : d = (j : Int) := by omega
        subst hdj
        rw [if_pos rfl, if_pos hdj', List.append_assoc]
        rfl
      · have hdj' : ¬ d = (j : Int) := by omega
        rw [if_neg hdj, if_neg hdj', List.append_nil]


/-- One `tickStep` on an accumulator whose wheel has a non-empty deque. -/
lemma tickStep_eq (acc : TimingWheel × List (Nat × Nat)) (b : Bucket)
    (rest : List Bucket) (h : acc.1.schedule = b :: rest) (i : Nat) :
    tickStep acc i =
      ({ acc.1 with
          schedule := rest ++ [⟨(i : Int), []⟩]
          actions := acc.1.actions.filter
            (fun a => ! (b.entries.map Prod.fst).contains a) },
       acc.2 ++ b.entries) := by
  obtain ⟨w, f⟩ := acc
  unfold tickStep
  simp only [] at h ⊢
  rw [h]

lemma flatMap_map_eq {α β γ : Type} (l : List α) (f : α → β) (g : β → List γ) :
    (l.map f).flatMap g = l.flatMap (fun x => g (f x)) := by
  induction l with
  | nil => rfl
  | cons x xs ih => simp [ih]

lemma flatMap_congr_mem {α β : Type} {l : List α} {f g : α → List β}
    (h : ∀ a ∈ l, f a = g a) : l.flatMap f = l.flatMap g := by
  induction l with
  | nil => rfl
  | cons x xs ih =>
    simp only [List.flatMap_cons]
    rw [h x (List.mem_cons_self _ _), ih (fun a ha => h a (List.mem_cons_of_mem _ ha))]

/-- Running the `tick` loop `m` times on a wheel with at least `m` buckets:
the first `m` buckets are drained in deque order (their payloads appended
to the accumulator front-to-back), and each is recycled, emptied, at the
back with its deadline set to the loop index. -/
lemma foldl_tickStep_spec :
    ∀ (m : Nat) (w : TimingWheel), m ≤ w.schedule.length →
      ∀ fired : List (Nat × Nat),
      ((List.range m).foldl tickStep (w, fired)).1.maxInterval = w.maxInterval ∧
      ((List.range m).foldl tickStep (w, fired)).1.time = w.time ∧
      ((List.range m).foldl tickStep (w, fired)).1.schedule =
          w.schedule.drop m ++
            (List.range m).map (fun i : Nat => (⟨(i : Int), []⟩ : Bucket)) ∧
      ((List.range m).foldl tickStep (w, fired)).2 =
          fired ++ (w.schedule.take m).flatMap Bucket.entries := by
  intro m
  induction m with
  | zero =>
    intro w _ fired
    simp
  | succ n ih =>
    intro w hm fired
    obtain ⟨hN, ht, hsch, hfired⟩ := ih w (by omega) fired
    have hlt : n < w.schedule.length := by omega
    rw [List.range_succ, List.foldl_append, List.foldl_cons, List.foldl_nil]
    have hcons : ((List.range n).foldl tickStep (w, fired)).1.schedule =
        w.schedule[n] :: (w.schedule.drop (n + 1) ++
          (List.range n).map (fun i : Nat => (⟨(i : Int), []⟩ : Bucket))) := by
      rw [hsch, List.drop_eq_getElem_cons hlt]
      rfl
    rw [tickStep_eq _ _ _ hcons n]
    refine ⟨hN, ht, ?_, ?_⟩
    · show (w.schedule.drop (n + 1) ++
          (List.range n).map (fun i : Nat => (⟨(i : Int), []⟩ : Bucket))) ++
            [⟨(n : Int), []⟩] = _
      rw [List.append_assoc, List.map_append]
      rfl
    · show ((List.range n).foldl tickStep (w, fired)).2 ++
          w.schedule[n].entries = _
      rw [hfired, List.take_succ, List.getElem?_eq_getElem hlt]
      rw [List.flatMap_append, List.append_assoc]
      simp

lemma mkWheel_getD (N : Nat) (c : Int) (j : Nat) (hj : j < N) :
    (mkWheel N c).schedule.getD j ⟨0, []⟩ = ⟨(j : Int), []⟩ := by
  unfold mkWheel
  simp only []
  rw [List.getD_eq_getElem _ _
    (by rw [List.length_map, List.length_range]; exact hj)]
  rw [List.getElem_map, List.getElem_range]

lemma bucketAfter_mkWheel_entries (N : Nat) (c : Int)
    (adds : List (Int × Nat)) (j : Nat) (hj : j < N) :
    (bucketAfter (mkWheel N c) adds j).entries = entriesFor 0 adds j := by
  unfold bucketAfter
  simp only []
  rw [mkWheel_getD N c j hj]
  show entriesFor (mkWheel N c).lastId adds j ++ [] = entriesFor 0 adds j
  rw [List.append_nil]
  rfl

/-- **C1 (amended)**: from any state reached by constructing the wheel at
time `c` and performing `add` calls with delays in `[0, N)` — no prior
advance — an accepted `tick(c + k)` (i.e. `0 ≤ k < N`) fires exactly the
pending actions whose absolute deadline `c + delay` lies in the *closed*
interval `[c, c + k]` (so a delay-0 action *is* fired, even by
`tick(c)` itself), in bucket order and most-recent-first within a bucket,
each exactly once (the fired ids are nodup); every action with a later
deadline stays in its bucket untouched (the surviving schedule is exactly
the untouched buckets followed by the recycled empty ones), and
`current_time` ends at `c + k`.  After a prior `tick` this
characterization breaks down entirely — see the counterexample theorem:
each call rotates `offset + 1` buckets while advancing time by `offset`,
so surviving actions move one slot closer per call and can fire before
their deadline. -/
theorem C1_fresh_tick_fires_closed_interval (N : Nat) (c : Int)
    (adds : List (Int × Nat)) (k : Nat)
    (hd : ∀ p ∈ adds, 0 ≤ p.1 ∧ p.1 < (N : Int)) (hk : k < N) :
    ((addAll (mkWheel N c) adds).tick (c + k)).2 =
        some ((List.range (k + 1)).flatMap (fun j => entriesFor 0 adds j)) ∧
    ((addAll (mkWheel N c) adds).tick (c + k)).1.time = c + k ∧
    (((List.range (k + 1)).flatMap (fun j => entriesFor 0 adds j)).map
        Prod.fst).Nodup ∧
    (∀ j, j < N → ∀ e ∈ entriesFor 0 adds j,
        (e ∈ (List.range (k + 1)).flatMap (fun j' => entriesFor 0 adds j') ↔
          (c ≤ c + (j : Int) ∧ c + (j : Int) ≤ c + (k : Int)))) ∧
    ((addAll (mkWheel N c) adds).tick (c + k)).1.schedule =
        ((List.range N).map (bucketAfter (mkWheel N c) adds)).drop (k + 1) ++
          (List.range (k + 1)).map (fun i : Nat => (⟨(i : Int), []⟩ : Bucket)) := by
  obtain ⟨hN, ht, hs⟩ := addAll_spec adds (mkWheel N c) hd
    (by rw [show (mkWheel N c).schedule =
          (List.range N).map (fun i : Nat => (⟨(i : Int), []⟩ : Bucket)) from rfl,
        List.length_map, List.length_range]; rfl)
  rw [show (mkWheel N c).maxInterval = N from rfl] at hN hs
  rw [show (mkWheel N c).time = c from rfl] at ht
  have hlen : (addAll (mkWheel N c) adds).schedule.length = N := by
    rw [hs, List.length_map, List.length_range]
  have htick : (addAll (mkWheel N c) adds).tick (c + k) =
      ({ ((List.range (k + 1)).foldl tickStep
            (addAll (mkWheel N c) adds, [])).1 with time := c + (k : Int) },
       some ((List.range (k + 1)).foldl tickStep
            (addAll (mkWheel N c) adds, [])).2) := by
    unfold TimingWheel.tick
    simp only []
    rw [ht]
    have h1 : c + (k : Int) - c = (k : Int) := by ring
    rw [h1, hN]
    rw [if_pos ⟨by exact_mod_cast Nat.zero_le k, by exact_mod_cast hk⟩]
    rw [Int.toNat_natCast]
  obtain ⟨fN, ft, fsch, ffired⟩ :=
    foldl_tickStep_spec (k + 1) (addAll (mkWheel N c) adds) (by omega) []
  have hfired_eq : ((List.range (k + 1)).foldl tickStep
      (addAll (mkWheel N c) adds, [])).2 =
      (List.range (k + 1)).flatMap (fun j => entriesFor 0 adds j) := by
    rw [ffired, List.nil_append, hs]
    rw [← List.map_take, List.take_range, Nat.min_eq_left (by omega)]
    rw [flatMap_map_eq]
    exact flatMap_congr_mem (fun j hj =>
      bucketAfter_mkWheel_entries N c adds j
        (by have := List.mem_range.1 hj; omega))
  refine ⟨?_, ?_, ?_, ?_, ?_⟩
  · rw [htick]
    simp only []
    rw [hfired_eq]
  · rw [htick]
  · exact nodup_fired_ids 0 adds (List.range (k + 1)) (List.nodup_range _)
  · intro j hjN e he
    constructor
    · intro hmem
      rw [List.mem_flatMap] at hmem
      obtain ⟨j', hj', he'⟩ := hmem
      have hj'k : j' < k + 1 := List.mem_range.1 hj'
      by_cases hjj : j = j'
      · subst hjj
        constructor
        · omega
        · omega
      · exact absurd rfl (entriesFor_disjoint hjj he he')
    · rintro ⟨_, hle⟩
      have hjk : j ≤ k := by omega
      rw [List.mem_flatMap]
      exact ⟨j, List.mem_range.2 (by omega), he⟩
  · rw [htick]
    simp only []
    rw [fsch, hs]


/-- **C1 (counterexample to the claim as stated)**: capacity-4 wheel at
time 0, `add(0, a)` (absolute deadline `0 + 0 = 0`) and `add(3, b)`
(absolute deadline `0 + 3 = 3`).  `tick(1)` fires the delay-0 action
(request id 1) although its deadline `0` does not lie in `(0, 1]` — so a
delay-0 action *is* fired, contradicting the claim's last sentence — and
the subsequent `tick(2)` fires the deadline-3 action (request id 2) and
leaves `current_time = 2`, although `3 > 2`: an action with a later
deadline is not left untouched. -/
theorem C1_counterexample_interval_violated :
    ((addAll (mkWheel 4 0) [(0, 10), (3, 11)]).tick 1).2 = some [(1, 10)] ∧
    ¬ ((0 : Int) < 0 + 0) ∧
    (((addAll (mkWheel 4 0) [(0, 10), (3, 11)]).tick 1).1.tick 2).2 =
      some [(2, 11)] ∧
    (((addAll (mkWheel 4 0) [(0, 10), (3, 11)]).tick 1).1.tick 2).1.time = 2 ∧
    ¬ ((0 : Int) + 3 ≤ 2) := by
  decide

/-- Witness for `C1_fresh_tick_fires_closed_interval` at `N = 2`, `c = 0`,
adds `[(0, 10), (1, 11)]`, `k = 1`, with both hypotheses discharged by
`decide`. -/
theorem C1_amended_witness :
    ((addAll (mkWheel 2 0) [(0, 10), (1, 11)]).tick
        ((0 : Int) + ((1 : Nat) : Int))).2 =
      some ((List.range (1 + 1)).flatMap
        (fun j => entriesFor 0 [(0, 10), (1, 11)] j)) ∧
    ((addAll (mkWheel 2 0) [(0, 10), (1, 11)]).tick
        ((0 : Int) + ((1 : Nat) : Int))).1.time =
      (0 : Int) + ((1 : Nat) : Int) ∧
    (((List.range (1 + 1)).flatMap
        (fun j => entriesFor 0 [(0, 10), (1, 11)] j)).map Prod.fst).Nodup ∧
    (∀ j, j < 2 → ∀ e ∈ entriesFor 0 [(0, 10), (1, 11)] j,
        (e ∈ (List.range (1 + 1)).flatMap
            (fun j' => entriesFor 0 [(0, 10), (1, 11)] j') ↔
          ((0 : Int) ≤ 0 + (j : Int) ∧
            (0 : Int) + (j : Int) ≤ 0 + ((1 : Nat) : Int)))) ∧
    ((addAll (mkWheel 2 0) [(0, 10), (1, 11)]).tick
        ((0 : Int) + ((1 : Nat) : Int))).1.schedule =
      ((List.range 2).map (bucketAfter (mkWheel 2 0) [(0, 10), (1, 11)])).drop
          (1 + 1) ++
        (List.range (1 + 1)).map (fun i : Nat => (⟨(i : Int), []⟩ : Bucket)) :=
  C1_fresh_tick_fires_closed_interval 2 0 [(0, 10), (1, 11)] 1
    (by decide) (by decide)

end timing_wheel

namespace epicycle

/-- Abstract state of `epicycle.TimingWheel`.  Buckets here carry no
deadline attribute (`make_list()` takes none in this module); a bucket is
just its payload list in ring order.  `time` starts at `0` and is only
ever incremented by `tick`, so it is a `Nat`. -/
structure TimingWheel where
  maxInterval : Nat
  time : Nat
  lastId : Nat
  schedule : List (List (Nat × Nat))
  actions : List Nat
deriving Repr, DecidableEq

/-- `TimingWheel(max_interval)` after `__attrs_post_init__`:
`_schedule = [make_list() for _ in range(max_interval)]`. -/
def mkWheel (maxInterval : Nat) : TimingWheel :=
  { maxInterval := maxInterval
    time := 0
    lastId := 0
    schedule := List.replicate maxInterval []
    actions := [] }

/-- `epicycle.TimingWheel.add(interval, f)`: allocate the id, compute
`offset = (self._time + interval) % self._max_interval` (Python `%` on a
positive modulus is `Int.emod`, always in `[0, max_interval)`), and push
the payload at the front of that bucket.  No range check of any kind is
performed.  (For `max_interval = 0` Python would raise
`ZeroDivisionError`; a wheel is only ever built with positive capacity.) -/
def TimingWheel.add (w : TimingWheel) (interval : Int) (act : Nat) :
    TimingWheel × Nat :=
  let rid := w.lastId + 1
  let offset := (((w.time : Int) + interval) % (w.maxInterval : Int)).toNat
  let b := w.schedule.getD offset []
  ({ w with
      lastId := rid
      schedule := w.schedule.set offset ((rid, act) :: b)
      actions := rid :: w.actions }, rid)

/-- `epicycle.TimingWheel.remove(request_id)`: same shape as in
`timing_wheel`. -/
def TimingWheel.remove (w : TimingWheel) (rid : Nat) : TimingWheel :=
  if rid ∈ w.actions then
    { w with
        actions := w.actions.filter (fun a => a ≠ rid)
        schedule := w.schedule.map (fun b => b.filter (fun e => e.1 ≠ rid)) }
  else
    w

/-- `epicycle.TimingWheel.tick()`: drain the bucket at index
`self._time % N` ("actions added with a time of 0"), increment `_time`,
then drain the bucket at the new `self._time % N`; every fired id is
deleted from `_actions`.  The two drains are sequential, so when both
indices coincide (`N = 1`) the second drain sees the already-emptied
bucket. -/
def TimingWheel.tick (w : TimingWheel) : TimingWheel × List (Nat × Nat) :=
  let first := w.time % w.maxInterval
  let time' := w.time + 1
  let second := time' % w.maxInterval
  let b1 := w.schedule.getD first []
  let s1 := w.schedule.set first []
  let b2 := s1.getD second []
  let s2 := s1.set second []
  let fired := b1 ++ b2
  ({ w with
      time := time'
      schedule := s2
      actions := w.actions.filter (fun a => ! (fired.map Prod.fst).contains a) },
   fired)

/-- `epicycle.TimingWheel.when()`: for `i` in `0 .. N-1`, return
`self._time + i` for the first `i` whose bucket at index
`(i + self._time % N) % N` is non-empty; `Empty` (here `none`) if all are
empty. -/
def TimingWheel.when (w : TimingWheel) : Option Nat :=
  let offset := w.time % w.maxInterval
  ((List.range w.maxInterval).find? (fun i =>
      ! (w.schedule.getD ((i + offset) % w.maxInterval) []).isEmpty)).map
    (fun i => w.time + i)

end epicycle

/-! ## Claim theorems -/

/-- **C3** (code bug, failing input): on a fresh wheel of capacity 4,
`add(-1, f)` does *not* fail: Python's negative deque indexing silently
wraps the delay to bucket `4 + (-1) = 3`, the call returns request id `1`,
links the payload into that bucket and stamps its deadline `time + (-1) =
-1`.  Moreover `add(4, f)` does fail (with `IndexError`, the code defines
no `DelayOutOfRange`), but only after the id counter has already been
incremented, so even the failing call mutates state. -/
theorem C3_add_negative_delay_wraps :
    (timing_wheel.mkWheel 4 0).add (-1) 7 =
      ({ maxInterval := 4, time := 0, lastId := 1,
         schedule := [⟨0, []⟩, ⟨1, []⟩, ⟨2, []⟩, ⟨-1, [(1, 7)]⟩],
         actions := [1] }, some 1) ∧
    (timing_wheel.mkWheel 4 0).add 4 7 =
      ({ maxInterval := 4, time := 0, lastId := 1,
         schedule := [⟨0, []⟩, ⟨1, []⟩, ⟨2, []⟩, ⟨3, []⟩],
         actions := [] }, none) := by
  decide

/-- **C4** (code bug, failing input): start a wheel of capacity 4 at time
0, `add(2, f)` (so the payload's bucket has `due_at = 2` and sits 2 slots
from the cursor), then `tick(0)` — a legal advance by zero.  The loop
rotates `offset + 1 = 1` bucket while leaving `current_time = 0`, so the
non-empty bucket is now at distance 1 from the cursor but still has
`due_at = 2 ≠ current_time + 1`.  The claimed invariant fails in a
reachable state. -/
theorem C4_due_at_distance_invariant_fails :
    (let w := (((timing_wheel.mkWheel 4 0).add 2 7).1.tick 0).1
     w.time = 0 ∧
     (w.schedule.getD 1 ⟨0, []⟩).entries = [(1, 7)] ∧
     (w.schedule.getD 1 ⟨0, []⟩).deadline = 2 ∧
     ¬ ((2 : Int) = 0 + 1)) := by
  decide

/-- **C5** (code bug): the `Empty` direction of the claim is right —
`when()` returns nothing iff every scanned bucket is empty (first
conjunct, fully general).  But `when()` returns the `due_at` of the first
non-empty bucket in deque order, not the minimum `due_at`: after
`add(5, x)`, three zero advances (each rotating one extra bucket) and
`add(3, y)`, the non-empty buckets have deadlines `[5, 3]` in deque order
and `when()` answers `5`, not the minimum `3`. -/
theorem C5_when_returns_first_not_minimum :
    (∀ w : timing_wheel.TimingWheel,
        w.when = none ↔ ∀ b ∈ w.schedule.take w.maxInterval, b.entries = []) ∧
    (let w5 := ((((((timing_wheel.mkWheel 6 0).add 5 20).1.tick 0).1.tick 0).1.tick
        0).1.add 3 21).1
     w5.when = some 5 ∧ timing_wheel.nonemptyDeadlines w5 = [5, 3] ∧
       ¬ ((5 : Int) ≤ 3)) := by
  constructor
  · intro w
    unfold timing_wheel.TimingWheel.when
    rw [Option.map_eq_none', List.find?_eq_none]
    simp
  · decide

/-- **C6** (confirmed): `tick(target)` fails — the `assert 0 <= offset <
max_interval` raises — exactly when `target < current_time` or `target ≥
current_time + max_interval`, and a failing call leaves the wheel
untouched (the assertion precedes every mutation). -/
theorem C6_tick_out_of_range :
    ∀ (w : timing_wheel.TimingWheel) (t : Int),
      ((w.tick t).2 = none ↔ (t < w.time ∨ w.time + w.maxInterval ≤ t)) ∧
      ((w.tick t).2 = none → (w.tick t).1 = w) := by
  intro w t
  unfold timing_wheel.TimingWheel.tick
  by_cases h : 0 ≤ t - w.time ∧ t - w.time < (w.maxInterval : Int)
  · rw [if_pos h]
    constructor
    · simp only []
      constructor
      · intro hc
        exact absurd hc (by simp)
      · intro hc
        exact absurd h (by omega)
    · intro hc
      exact absurd hc (by simp)
  · rw [if_neg h]
    constructor
    · simp only []
      constructor
      · intro _
        omega
      · intro _
        trivial
    · intro _
      rfl

/-- Witness for `C6_tick_out_of_range` at `w = mkWheel 3 0`, `t = -1`. -/
theorem C6_witness :
    (((timing_wheel.mkWheel 3 0).tick (-1)).2 = none ↔
      ((-1 : Int) < 0 ∨ (0 : Int) + 3 ≤ -1)) ∧
    (((timing_wheel.mkWheel 3 0).tick (-1)).2 = none →
      ((timing_wheel.mkWheel 3 0).tick (-1)).1 = timing_wheel.mkWheel 3 0) :=
  C6_tick_out_of_range (timing_wheel.mkWheel 3 0) (-1)

/-- **C7** (code bug, failing input): the two wheels are *not*
observationally equivalent under matched single-step advances.  Both start
with capacity 5 and `add(3, f)` (equal request ids).  After the first
matched step neither fires anything, but after the second step the deque
wheel — whose `tick` consumes `offset + 1 = 2` buckets per call, shifting
its alignment by one each call — fires the action at time 2 (deadline 3),
while the modulo wheel fires nothing; immediately afterwards their
`when()` answers differ as well (`Empty` versus `3`). -/
theorem C7_wheels_diverge :
    (let w0 := ((timing_wheel.mkWheel 5 0).add 3 7).1
     let e0 := ((epicycle.mkWheel 5).add 3 7).1
     (((timing_wheel.mkWheel 5 0).add 3 7).2 = some 1 ∧
       ((epicycle.mkWheel 5).add 3 7).2 = 1) ∧
     ((w0.tick 1).2 = some [] ∧ e0.tick.2 = []) ∧
     (((w0.tick 1).1.tick 2).2 = some [(1, 7)] ∧ (e0.tick.1.tick).2 = []) ∧
     (((w0.tick 1).1.tick 2).1.when = none ∧
       (e0.tick.1.tick).1.when = some 3)) := by
  decide

/-- **C9** (confirmed): `remove` of a request id absent from the id map is
a pure no-op — the state is unchanged, hence every later `tick` and
`when` behaves exactly as if the `remove` had not happened. -/
theorem C9_remove_absent_noop (w : timing_wheel.TimingWheel) (rid : Nat)
    (h : rid ∉ w.actions) :
    w.remove rid = w ∧
    (∀ t, (w.remove rid).tick t = w.tick t) ∧
    (w.remove rid).when = w.when := by
  have he : w.remove rid = w := by
    unfold timing_wheel.TimingWheel.remove
    rw [if_neg h]
  exact ⟨he, fun t => by rw [he], by rw [he]⟩

/-- Witness for `C9_remove_absent_noop`: id `5` was never issued on this
wheel. -/
theorem C9_witness :
    (timing_wheel.mkWheel 2 0).remove 5 = timing_wheel.mkWheel 2 0 ∧
    (∀ t, ((timing_wheel.mkWheel 2 0).remove 5).tick t =
      (timing_wheel.mkWheel 2 0).tick t) ∧
    ((timing_wheel.mkWheel 2 0).remove 5).when =
      (timing_wheel.mkWheel 2 0).when :=
  C9_remove_absent_noop (timing_wheel.mkWheel 2 0) 5 (by decide)

namespace ring

/-!
### Pointer-level embedding of `_Cell` / `_List`

This models the intrusive doubly-linked ring exactly as the Python source
does, one attribute write at a time.  A `Heap` maps cell ids to records
with the three `_Cell` attributes (`value`, `successor`, `predecessor` —
`none` is Python `None`); `size` is the allocation bound, fresh cells are
allocated at `size`.  Both modules of the repository contain the identical
`_Cell`/`_List` code (the `timing_wheel` variant adds a `deadline`
attribute on `_List`, carried here and otherwise inert).
-/

/-- One `_Cell`: `value`, `successor`, `predecessor`.  Payload values are
opaque `Nat` labels; sentinels carry `none` (`_Cell(None)`). -/
structure Cell where
  value : Option Nat
  successor : Option Nat
  predecessor : Option Nat
deriving Repr, DecidableEq

/-- The object heap: every id maps to a cell record; ids `≥ size` are
unallocated (their records are irrelevant until overwritten by `alloc`). -/
structure Heap where
  size : Nat
  cells : Nat → Cell

/-- Overwrite the record of cell `i` with `f` applied to its current
record (one or more attribute writes on one object). -/
def updCell (h : Heap) (i : Nat) (f : Cell → Cell) : Heap :=
  { h with cells := fun j => if j = i then f (h.cells i) else h.cells j }

/-- `_Cell(value)`: allocate a fresh cell with both pointers `None`. -/
def alloc (h : Heap) (v : Option Nat) : Heap × Nat :=
  ({ size := h.size + 1
     cells := fun j => if j = h.size then ⟨v, none, none⟩ else h.cells j },
   h.size)

/-- `_Cell.add(self, successor)`: the three statements in source order —
`if self.successor is not None: self.successor.predecessor = successor`;
`successor.predecessor = self`; `self.successor = successor`. -/
def Cell.add (h : Heap) (self sc : Nat) : Heap :=
  let h1 := match (h.cells self).successor with
    | some s => updCell h s (fun r => { r with predecessor := some sc })
    | none => h
  let h2 := updCell h1 sc (fun r => { r with predecessor := some self })
  updCell h2 self (fun r => { r with successor := some sc })

/-- `_Cell.remove(self)`: the four statements in source order, each read
performed at the moment the Python line executes (`if self.predecessor:`
— a cell object is always truthy, `None` falsy). -/
def Cell.remove (h : Heap) (self : Nat) : Heap :=
  let h1 := match (h.cells self).predecessor with
    | some p => updCell h p
        (fun r => { r with successor := (h.cells self).successor })
    | none => h
  let h2 := match (h1.cells self).successor with
    | some s => updCell h1 s
        (fun r => { r with predecessor := (h1.cells self).predecessor })
    | none => h1
  let h3 := updCell h2 self (fun r => { r with successor := none })
  updCell h3 self (fun r => { r with predecessor := none })

/-- A `_List`: the two sentinel ids and the (inert, `timing_wheel`-only)
`deadline` attribute. -/
structure RList where
  head : Nat
  tail : Nat
  deadline : Int
deriving Repr, DecidableEq

/-- `make_list(deadline)`: allocate head and tail sentinels and link them
into a two-cell ring (`head.add(tail); tail.add(head)`). -/
def make_list (h : Heap) (deadline : Int) : Heap × RList :=
  let a1 := alloc h none
  let a2 := alloc a1.1 none
  let h3 := Cell.add a2.1 a1.2 a2.2
  let h4 := Cell.add h3 a2.2 a1.2
  (h4, ⟨a1.2, a2.2, deadline⟩)

/-- `_List.add_to_front(value)`: wrap the value in a fresh cell and splice
it right after the head sentinel, four pointer writes in source order.
(`self.head.successor` being `None` is impossible on a well-formed list;
Python would raise `AttributeError`, modelled by leaving the ring alone.) -/
def RList.add_to_front (l : RList) (h : Heap) (v : Nat) : Heap × Nat :=
  let a := alloc h (some v)
  match (a.1.cells l.head).successor with
  | some s =>
      let h2 := updCell a.1 a.2 (fun r => { r with successor := some s })
      let h3 := updCell h2 a.2 (fun r => { r with predecessor := some l.head })
      let h4 := updCell h3 s (fun r => { r with predecessor := some a.2 })
      let h5 := updCell h4 l.head (fun r => { r with successor := some a.2 })
      (h5, a.2)
  | none => (a.1, a.2)

/-- `_List.empty()`: `self.head.successor is self.tail`. -/
def RList.isempty (l : RList) (h : Heap) : Bool :=
  (h.cells l.head).successor = some l.tail

/-- The loop body of `_List.consume()`, fuel-bounded: while the cursor is
not the tail sentinel, save `next_cell = cell.successor`, `cell.remove()`,
then yield `cell.value`.  Each yielded element is paired with the
instrumentation flag "both pointers of the yielded cell are `None` at the
moment of the yield" (i.e. the cell is unlinked before its value is
handed to the consumer).  `none` means the traversal fell off the ring
(Python `AttributeError`) or ran out of fuel — impossible from a
well-formed list, see `consumeAux_drain`. -/
def consumeAux : Nat → Heap → Nat → Nat → Option (List (Option Nat × Bool) × Heap)
  | 0, _, _, _ => none
  | fuel + 1, h, cur, tail =>
      if cur = tail then some ([], h)
      else
        match (h.cells cur).successor with
        | none => none
        | some nxt =>
            let h' := Cell.remove h cur
            match consumeAux fuel h' nxt tail with
            | none => none
            | some (res, hf) =>
                some (((h.cells cur).value,
                  decide ((h'.cells cur).successor = none) &&
                    decide ((h'.cells cur).predecessor = none)) :: res, hf)

/-- `_List.consume()`, drained to exhaustion (as `tick` does). -/
def RList.consume (l : RList) (h : Heap) :
    Option (List (Option Nat × Bool) × Heap) :=
  match (h.cells l.head).successor with
  | none => none
  | some c => consumeAux (h.size + 1) h c l.tail

end ring

namespace ring

lemma heap_ext {h1 h2 : Heap} (hsz : h1.size = h2.size)
    (hc : ∀ j, h1.cells j = h2.cells j) : h1 = h2 := by
  cases h1
  cases h2
  rw [Heap.mk.injEq]
  exact ⟨hsz, funext hc⟩

lemma remove_nulls_self (h : Heap) (c : Nat) :
    ((Cell.remove h c).cells c).successor = none ∧
    ((Cell.remove h c).cells c).predecessor = none := by
  unfold Cell.remove
  constructor <;> simp [updCell]

/-- Full characterization of `_Cell.remove` on an interior cell of a
well-formed ring (both neighbors exist, all three cells distinct). -/
lemma remove_spec (h : Heap) (c pc nc : Nat)
    (hp : (h.cells c).predecessor = some pc)
    (hs : (h.cells c).successor = some nc)
    (hpc : pc ≠ c) (hnc : nc ≠ c) (hpn : pc ≠ nc) :
    Cell.remove h c =
      { size := h.size
        cells := fun x =>
          if x = c then
            { h.cells c with successor := none, predecessor := none }
          else if x = pc then { h.cells pc with successor := some nc }
          else if x = nc then { h.cells nc with predecessor := some pc }
          else h.cells x } := by
  have hcp : ¬ (c = pc) := fun hh => hpc hh.symm
  have hcn : ¬ (c = nc) := fun hh => hnc hh.symm
  have hnp : ¬ (nc = pc) := fun hh => hpn hh.symm
  unfold Cell.remove
  rw [hp]
  dsimp only []
  rw [show ((updCell h pc
      (fun r => { r with successor := (h.cells c).successor })).cells c).successor
      = some nc from by simp only [updCell, if_neg hcp]; exact hs]
  dsimp only []
  apply heap_ext
  · rfl
  · intro x
    simp only [updCell, if_neg hcp, hp, hs]
    by_cases hxc : x = c
    · subst hxc
      simp [hcn, hcp, hnp]
    · by_cases hxn : x = nc
      · subst hxn
        simp [hxc, hnp]
      · by_cases hxp : x = pc
        · subst hxp
          simp [hxc, hxn]
        · simp [hxc, hxn, hxp]

/-- `isChain h a l b`: from `a`, following `successor` pointers visits
exactly the cells of `l` in order and then reaches `b`, with matching
back-pointers at every hop.  A well-formed bucket with payload cells `l`
(most recent first) satisfies `isChain h head l tail`. -/
def isChain (h : Heap) : Nat → List Nat → Nat → Prop
  | a, [], b => (h.cells a).successor = some b ∧
      (h.cells b).predecessor = some a
  | a, c :: cs, b => (h.cells a).successor = some c ∧
      (h.cells c).predecessor = some a ∧ isChain h c cs b

lemma isChain_of_eq_on {h h' : Heap} :
    ∀ (l : List Nat) (a b : Nat),
      isChain h a l b →
      (∀ x, x = a ∨ x ∈ l →
        (h'.cells x).successor = (h.cells x).successor) →
      (∀ x, x ∈ l ∨ x = b →
        (h'.cells x).predecessor = (h.cells x).predecessor) →
      isChain h' a l b := by
  intro l
  induction l with
  | nil =>
    intro a b hc hsucc hpred
    exact ⟨(hsucc a (Or.inl rfl)).trans hc.1,
      (hpred b (Or.inr rfl)).trans hc.2⟩
  | cons c cs ih =>
    intro a b hc hsucc hpred
    refine ⟨(hsucc a (Or.inl rfl)).trans hc.1,
      (hpred c (Or.inl (List.mem_cons_self _ _))).trans hc.2.1,
      ih c b hc.2.2 (fun x hx => hsucc x ?_) (fun x hx => hpred x ?_)⟩
    · rcases hx with rfl | hx
      · exact Or.inr (List.mem_cons_self _ _)
      · exact Or.inr (List.mem_cons_of_mem _ hx)
    · rcases hx with hx | rfl
      · exact Or.inl (List.mem_cons_of_mem _ hx)
      · exact Or.inr rfl

/-- The successor stored in the first cell of a chain (or its left
endpoint when the chain is empty). -/
lemma isChain_head_succ {h : Heap} {c : Nat} {cs : List Nat} {b : Nat}
    (hc : isChain h c cs b) :
    (h.cells c).successor = some (cs.headD b) := by
  cases cs with
  | nil => exact hc.1
  | cons d ds => exact hc.1

/-- The fuel-bounded `consume` loop, run from the first payload cell of a
well-formed chain: it visits every chain cell exactly once in order,
yields each value with its cell already unlinked (flag `true`), ends with
the endpoints linked directly together, leaves every visited cell fully
unlinked, and touches nothing outside the chain and its endpoints. -/
lemma consumeAux_drain :
    ∀ (ids : List Nat) (h : Heap) (prev tl fuel : Nat),
      isChain h prev ids tl →
      (prev :: tl :: ids).Nodup →
      ids.length < fuel →
      ∃ hf, consumeAux fuel h (ids.headD tl) tl =
          some (ids.map (fun c => ((h.cells c).value, true)), hf) ∧
        isChain hf prev [] tl ∧
        (∀ x ∈ ids, (hf.cells x).successor = none ∧
          (hf.cells x).predecessor = none) ∧
        (∀ x, ¬ x ∈ (prev :: tl :: ids) → hf.cells x = h.cells x) ∧
        hf.size = h.size := by
  intro ids
  induction ids with
  | nil =>
    intro h prev tl fuel hchain hnd hfuel
    cases fuel with
    | zero => exact absurd hfuel (Nat.not_lt_zero _)
    | succ f =>
      refine ⟨h, ?_, hchain, by simp, fun x _ => rfl, rfl⟩
      simp [consumeAux]
  | cons c cs ih =>
    intro h prev tl fuel hchain hnd hfuel
    cases fuel with
    | zero => exact absurd hfuel (Nat.not_lt_zero _)
    | succ f =>
      try simp only [List.headD_cons]
      obtain ⟨hps, hcp, hrest⟩ := hchain
      have hndfacts := hnd
      simp only [List.nodup_cons, List.mem_cons] at hndfacts
      obtain ⟨hprev, htl, hccs, hcsnd⟩ := hndfacts
      have hprevc : prev ≠ c := fun hh => hprev (Or.inr (Or.inl hh))
      have htlc : tl ≠ c := fun hh => htl (Or.inl hh)
      have hctl : c ≠ tl := fun hh => htlc hh.symm
      have hprevtl : prev ≠ tl := fun hh => hprev (Or.inl hh)
      have hnext : (h.cells c).successor = some (cs.headD tl) :=
        isChain_head_succ hrest
      have hnextc : cs.headD tl ≠ c := by
        cases cs with
        | nil => exact htlc
        | cons d ds =>
          simp only [List.headD_cons]
          intro hh
          exact hccs (by rw [← hh]; exact List.mem_cons_self d ds)
      have hprevnext : prev ≠ cs.headD tl := by
        cases cs with
        | nil => exact hprevtl
        | cons d ds =>
          simp only [List.headD_cons]
          intro hh
          exact hprev (Or.inr (Or.inr (by rw [hh]; exact List.mem_cons_self d ds)))
      rw [show consumeAux (f + 1) h c tl =
          (match consumeAux f (Cell.remove h c) (cs.headD tl) tl with
           | none => none
           | some (res, hf) =>
               some (((h.cells c).value,
                 decide (((Cell.remove h c).cells c).successor = none) &&
                   decide (((Cell.remove h c).cells c).predecessor = none))
                 :: res, hf)) from by
        rw [consumeAux, if_neg hctl, hnext]]
      rw [remove_spec h c prev (cs.headD tl) hcp hnext hprevc hnextc hprevnext]
      set H : Heap :=
        { size := h.size
          cells := fun x =>
            if x = c then
              { h.cells c with successor := none, predecessor := none }
            else if x = prev then
              { h.cells prev with successor := some (cs.headD tl) }
            else if x = cs.headD tl then
              { h.cells (cs.headD tl) with predecessor := some prev }
            else h.cells x } with hH
      have hHc : H.cells c =
          { h.cells c with successor := none, predecessor := none } := by
        rw [hH]
        dsimp only []
        rw [if_pos rfl]
      have hHprev : (H.cells prev).successor = some (cs.headD tl) := by
        rw [hH]
        dsimp only []
        rw [if_neg hprevc, if_pos rfl]
      have hHnext : (H.cells (cs.headD tl)).predecessor = some prev := by
        rw [hH]
        dsimp only []
        rw [if_neg hnextc]
        by_cases hh : cs.headD tl = prev
        · exact absurd hh.symm hprevnext
        · rw [if_neg hh, if_pos rfl]
      have hHsucc : ∀ x, x ≠ c → x ≠ prev →
          (H.cells x).successor = (h.cells x).successor := by
        intro x h1 h2
        rw [hH]
        dsimp only []
        rw [if_neg h1, if_neg h2]
        by_cases h3 : x = cs.headD tl
        · rw [if_pos h3, h3]
        · rw [if_neg h3]
      have hHpred : ∀ x, x ≠ c → x ≠ cs.headD tl →
          (H.cells x).predecessor = (h.cells x).predecessor := by
        intro x h1 h3
        rw [hH]
        dsimp only []
        rw [if_neg h1, if_neg h3]
        by_cases h2 : x = prev
        · rw [if_pos h2, h2]
        · rw [if_neg h2]
      have hHval : ∀ x, (H.cells x).value = (h.cells x).value := by
        intro x
        rw [hH]
        dsimp only []
        by_cases h1 : x = c
        · rw [if_pos h1, h1]
        · rw [if_neg h1]
          by_cases h2 : x = prev
          · rw [if_pos h2, h2]
          · rw [if_neg h2]
            by_cases h3 : x = cs.headD tl
            · rw [if_pos h3, h3]
            · rw [if_neg h3]
      have hHout : ∀ x, x ≠ c → x ≠ prev → x ≠ cs.headD tl →
          H.cells x = h.cells x := by
        intro x h1 h2 h3
        rw [hH]
        dsimp only []
        rw [if_neg h1, if_neg h2, if_neg h3]
      have hchain' : isChain H prev cs tl := by
        cases cs with
        | nil =>
          exact ⟨hHprev, hHnext⟩
        | cons d ds =>
          have hdc : d ≠ c := fun hh =>
            hccs (by rw [← hh]; exact List.mem_cons_self d ds)
          have hdprev : d ≠ prev := fun hh => hprevnext hh.symm
          obtain ⟨-, -, hdchain⟩ := hrest
          refine ⟨hHprev, hHnext, ?_⟩
          have hdsnd := hcsnd
          rw [List.nodup_cons] at hdsnd
          apply isChain_of_eq_on ds d tl hdchain
          · intro x hx
            rcases hx with rfl | hx
            · exact hHsucc x hdc hdprev
            · refine hHsucc x ?_ ?_
              · intro hh
                exact hccs (by rw [← hh]; exact List.mem_cons_of_mem _ hx)
              · intro hh
                exact hprev (Or.inr (Or.inr
                  (by rw [hh] at hx; exact List.mem_cons_of_mem _ hx)))
          · intro x hx
            rcases hx with hx | rfl
            · refine hHpred x ?_ ?_
              · intro hh
                exact hccs (by rw [← hh]; exact List.mem_cons_of_mem _ hx)
              · simp only [List.headD_cons]
                intro hh
                exact hdsnd.1 (by rw [← hh]; exact hx)
            · refine hHpred x htlc ?_
              simp only [List.headD_cons]
              intro hh
              exact htl (Or.inr (by rw [hh]; exact List.mem_cons_self d ds))
      have hnd2 : (prev :: tl :: cs).Nodup := by
        simp only [List.nodup_cons, List.mem_cons] at hnd ⊢
        tauto
      obtain ⟨hf, heq, hch, hnulls, hout, hsz⟩ :=
        ih H prev tl f hchain' hnd2 (by
          have := hfuel
          simp only [List.length_cons] at this
          omega)
      rw [heq]
      refine ⟨hf, ?_, hch, ?_, ?_, ?_⟩
      · have hflag : (decide ((H.cells c).successor = none) &&
            decide ((H.cells c).predecessor = none)) = true := by
          rw [hHc]
          simp
        rw [hflag]
        have hmap : cs.map (fun x => ((H.cells x).value, true)) =
            cs.map (fun x => ((h.cells x).value, true)) :=
          List.map_congr_left (fun x _ => by rw [hHval])
        rw [hmap]
        simp
      · intro x hx
        rcases List.mem_cons.1 hx with rfl | hx
        · have : hf.cells x = H.cells x := by
            apply hout
            simp only [List.mem_cons]
            push_neg
            refine ⟨fun hh => hprevc hh.symm, fun hh => htlc hh.symm, hccs⟩
          rw [this, hHc]
          exact ⟨rfl, rfl⟩
        · exact hnulls x hx
      · intro x hx
        simp only [List.mem_cons] at hx
        push_neg at hx
        obtain ⟨hx1, hx2, hx3, hx4⟩ := hx
        have hxh : cs.headD tl ≠ x := by
          cases cs with
          | nil => exact fun hh => hx2 hh.symm
          | cons d ds =>
            simp only [List.headD_cons]
            intro hh
            exact hx4 (by rw [← hh]; exact List.mem_cons_self d ds)
        rw [hout x (by
          simp only [List.mem_cons]
          push_neg
          exact ⟨hx1, hx2, hx4⟩)]
        exact hHout x (fun hh => hx3 hh) (fun hh => hx1 hh)
          (fun hh => hxh hh.symm)
      · rw [hsz]

end ring

namespace ring

/-- A well-formed bucket: its payload cells `ids` (most recent first) form
a doubly-linked chain between the sentinels, all involved cells are
distinct, and all are allocated. -/
def goodBucket (h : Heap) (l : RList) (ids : List Nat) : Prop :=
  isChain h l.head ids l.tail ∧ (l.head :: l.tail :: ids).Nodup ∧
  ∀ x ∈ l.head :: l.tail :: ids, x < h.size

lemma make_list_spec (h : Heap) (dl : Int) :
    (make_list h dl).2 = ⟨h.size, h.size + 1, dl⟩ ∧
    (make_list h dl).1.size = h.size + 2 ∧
    (make_list h dl).1.cells h.size =
      ⟨none, some (h.size + 1), some (h.size + 1)⟩ ∧
    (make_list h dl).1.cells (h.size + 1) = ⟨none, some h.size, some h.size⟩ ∧
    (∀ x, x ≠ h.size → x ≠ h.size + 1 →
      (make_list h dl).1.cells x = h.cells x) := by
  have e1 : ¬ (h.size + 1 = h.size) := by omega
  have e2 : ¬ (h.size = h.size + 1) := by omega
  refine ⟨rfl, ?_, ?_, ?_, ?_⟩
  · simp [make_list, alloc, Cell.add, updCell, e1, e2]
  · simp [make_list, alloc, Cell.add, updCell, e1, e2]
  · simp [make_list, alloc, Cell.add, updCell, e1, e2]
  · intro x hx1 hx2
    simp [make_list, alloc, Cell.add, updCell, e1, e2, hx1, hx2]

lemma make_list_goodBucket (h : Heap) (dl : Int) :
    goodBucket (make_list h dl).1 (make_list h dl).2 [] := by
  obtain ⟨hl, hsz, hhd, htl, -⟩ := make_list_spec h dl
  rw [hl]
  refine ⟨⟨?_, ?_⟩, by simp, ?_⟩
  · show ((make_list h dl).1.cells h.size).successor = some (h.size + 1)
    rw [hhd]
  · show ((make_list h dl).1.cells (h.size + 1)).predecessor = some h.size
    rw [htl]
  · intro x hx
    simp only [List.mem_cons, List.not_mem_nil, or_false] at hx
    rcases hx with rfl | rfl
    · omega
    · omega

/-- Full characterization of `_List.add_to_front` on a well-formed list:
the fresh cell `h.size` is spliced between the head sentinel and the old
first cell `s`, nothing else changes. -/
lemma add_to_front_eq (h : Heap) (l : RList) (v : Nat) (s : Nat)
    (hhs : (h.cells l.head).successor = some s)
    (hheadlt : l.head < h.size) (hslt : s < h.size) (hshead : s ≠ l.head) :
    l.add_to_front h v =
      ({ size := h.size + 1
         cells := fun x =>
           if x = l.head then { h.cells l.head with successor := some h.size }
           else if x = s then { h.cells s with predecessor := some h.size }
           else if x = h.size then ⟨some v, some s, some l.head⟩
           else h.cells x }, h.size) := by
  have hheadne : ¬ (l.head = h.size) := by omega
  have hsne : ¬ (s = h.size) := by omega
  unfold RList.add_to_front alloc
  dsimp only []
  rw [show ((if l.head = h.size then (⟨some v, none, none⟩ : Cell)
      else h.cells l.head)).successor = some s from by
    rw [if_neg hheadne]; exact hhs]
  dsimp only []
  rw [Prod.mk.injEq]
  refine ⟨?_, rfl⟩
  apply heap_ext
  · rfl
  · intro x
    simp only [updCell]
    by_cases hx1 : x = l.head
    · subst hx1
      simp [hheadne, Ne.symm hshead]
    · by_cases hx2 : x = s
      · subst hx2
        simp [hsne, hx1]
      · by_cases hx3 : x = h.size
        · subst hx3
          simp [hx1, hx2]
        · simp [hx1, hx2, hx3]

lemma add_to_front_spec (h : Heap) (l : RList) (ids : List Nat) (v : Nat)
    (hg : goodBucket h l ids) :
    (l.add_to_front h v).2 = h.size ∧
    (l.add_to_front h v).1.size = h.size + 1 ∧
    goodBucket (l.add_to_front h v).1 l (h.size :: ids) ∧
    (∀ x, ((l.add_to_front h v).1.cells x).value =
      if x = h.size then some v else (h.cells x).value) := by
  obtain ⟨hchain, hnd, hbound⟩ := hg
  have hndf := hnd
  simp only [List.nodup_cons, List.mem_cons] at hndf
  obtain ⟨hheadmem, htlmem, hidsnd⟩ := hndf
  have hhs : (h.cells l.head).successor = some (ids.headD l.tail) :=
    isChain_head_succ hchain
  have hheadlt : l.head < h.size := hbound _ (by simp)
  have htllt : l.tail < h.size := hbound _ (by simp)
  have hslt : ids.headD l.tail < h.size := by
    cases ids with
    | nil => exact htllt
    | cons d ds => exact hbound d (by simp)
  have hshead : ids.headD l.tail ≠ l.head := by
    cases ids with
    | nil =>
      exact fun hh => hheadmem (Or.inl hh.symm)
    | cons d ds =>
      simp only [List.headD_cons]
      intro hh
      exact hheadmem (Or.inr (by rw [← hh]; exact List.mem_cons_self d ds))
  rw [add_to_front_eq h l v (ids.headD l.tail) hhs hheadlt hslt hshead]
  set s := ids.headD l.tail with hsdef
  set H : Heap :=
    { size := h.size + 1
      cells := fun x =>
        if x = l.head then { h.cells l.head with successor := some h.size }
        else if x = s then { h.cells s with predecessor := some h.size }
        else if x = h.size then ⟨some v, some s, some l.head⟩
        else h.cells x } with hH
  have hHhead : (H.cells l.head).successor = some h.size := by
    rw [hH]
    dsimp only []
    rw [if_pos rfl]
  have hHs : (H.cells s).predecessor = some h.size := by
    rw [hH]
    dsimp only []
    rw [if_neg hshead, if_pos rfl]
  have hHnew : H.cells h.size = ⟨some v, some s, some l.head⟩ := by
    rw [hH]
    dsimp only []
    rw [if_neg (by omega : ¬ (h.size = l.head)),
      if_neg (by omega : ¬ (h.size = s)), if_pos rfl]
  have hHsucc : ∀ x, x ≠ l.head → x ≠ h.size →
      (H.cells x).successor = (h.cells x).successor := by
    intro x h1 h2
    rw [hH]
    dsimp only []
    rw [if_neg h1]
    by_cases h3 : x = s
    · rw [if_pos h3, h3]
    · rw [if_neg h3, if_neg h2]
  have hHpred : ∀ x, x ≠ s → x ≠ h.size →
      (H.cells x).predecessor = (h.cells x).predecessor := by
    intro x h3 h2
    rw [hH]
    dsimp only []
    by_cases h1 : x = l.head
    · rw [if_pos h1, h1]
    · rw [if_neg h1, if_neg h3, if_neg h2]
  refine ⟨rfl, rfl, ⟨?_, ?_, ?_⟩, ?_⟩
  · -- the chain with the new cell in front
    refine ⟨hHhead, ?_, ?_⟩
    · show (H.cells h.size).predecessor = some l.head
      rw [hHnew]
    · cases ids with
      | nil =>
        refine ⟨?_, ?_⟩
        · show (H.cells h.size).successor = some l.tail
          rw [hHnew]
          simp [hsdef]
        · exact hHs
      | cons d ds =>
        have hdlt : d < h.size := hbound d (by simp)
        refine ⟨?_, hHs, ?_⟩
        · show (H.cells h.size).successor = some d
          rw [hHnew]
          simp [hsdef]
        · have hrest : isChain h d ds l.tail := hchain.2.2
          apply isChain_of_eq_on ds d l.tail hrest
          · intro x hx
            have hxlt : x < h.size := by
              rcases hx with rfl | hx
              · exact hdlt
              · exact hbound x (by simp [hx])
            refine hHsucc x ?_ (by omega)
            rcases hx with rfl | hx
            · exact fun hh =>
                hheadmem (Or.inr (by rw [← hh]; exact List.mem_cons_self _ _))
            · exact fun hh => hheadmem (Or.inr (by
                rw [← hh]; exact List.mem_cons_of_mem _ hx))
          · intro x hx
            have hxlt : x < h.size := by
              rcases hx with hx | rfl
              · exact hbound x (by simp [List.mem_cons_of_mem _ hx])
              · exact htllt
            refine hHpred x ?_ (by omega)
            rw [hsdef]
            simp only [List.headD_cons]
            rcases hx with hx | rfl
            · intro hh
              rw [List.nodup_cons] at hidsnd
              exact hidsnd.1 (hh ▸ hx)
            · intro hh
              exact htlmem (by rw [hh]; exact List.mem_cons_self _ _)
  · -- distinctness, the fresh cell is new
    refine List.nodup_cons.2 ⟨?_, List.nodup_cons.2 ⟨?_,
      List.nodup_cons.2 ⟨?_, hidsnd⟩⟩⟩
    · simp only [List.mem_cons]
      rintro (hh | hh | hh)
      · exact hheadmem (Or.inl hh)
      · omega
      · exact hheadmem (Or.inr hh)
    · simp only [List.mem_cons]
      rintro (hh | hh)
      · omega
      · exact htlmem hh
    · intro hh
      have := hbound h.size (by simp [hh])
      omega
  · -- allocation bounds
    intro x hx
    have hxsz : H.size = h.size + 1 := by rw [hH]
    rw [hxsz]
    simp only [List.mem_cons] at hx
    rcases hx with rfl | rfl | rfl | hx
    · omega
    · omega
    · omega
    · have := hbound x (by simp [hx])
      omega
  · intro x
    rw [hH]
    dsimp only []
    by_cases h1 : x = l.head
    · rw [if_pos h1, if_neg (by omega : ¬ x = h.size), h1]
    · rw [if_neg h1]
      by_cases h2 : x = s
      · rw [if_pos h2, if_neg (by rw [h2]; omega : ¬ x = h.size), h2]
      · rw [if_neg h2]
        by_cases h3 : x = h.size
        · rw [if_pos h3, if_pos h3]
        · rw [if_neg h3, if_neg h3]

end ring

namespace ring

/-- Repeated `_List.add_to_front`, one call per value, in order. -/
def RList.pushAll (l : RList) (h : Heap) : List Nat → Heap
  | [] => h
  | v :: rest => RList.pushAll l (l.add_to_front h v).1 rest

lemma pushAll_spec :
    ∀ (vs : List Nat) (h : Heap) (l : RList) (ids : List Nat),
      goodBucket h l ids →
      ∃ new : List Nat,
        goodBucket (RList.pushAll l h vs) l (new ++ ids) ∧
        new.map (fun c => ((RList.pushAll l h vs).cells c).value) =
          vs.reverse.map some ∧
        (∀ x ∈ ids, ((RList.pushAll l h vs).cells x).value =
          (h.cells x).value) := by
  intro vs
  induction vs with
  | nil =>
    intro h l ids hg
    exact ⟨[], by simpa using hg, by simp, fun x _ => rfl⟩
  | cons v rest ih =>
    intro h l ids hg
    obtain ⟨hid, hsz, hg1, hval⟩ := add_to_front_spec h l ids v hg
    obtain ⟨new, hgood, hvals, hold⟩ :=
      ih (l.add_to_front h v).1 l (h.size :: ids) hg1
    have hstep : RList.pushAll l h (v :: rest) =
        RList.pushAll l (l.add_to_front h v).1 rest := rfl
    refine ⟨new ++ [h.size], ?_, ?_, ?_⟩
    · rw [hstep, List.append_assoc]
      simpa using hgood
    · rw [hstep, List.map_append, hvals]
      have hcv : ((RList.pushAll l (l.add_to_front h v).1 rest).cells
          h.size).value = some v := by
        rw [hold h.size (List.mem_cons_self _ _), hval h.size, if_pos rfl]
      simp [hcv]
    · intro x hx
      have hxlt : x < h.size := hg.2.2 x (by simp [hx])
      rw [hstep, hold x (List.mem_cons_of_mem _ hx), hval x,
        if_neg (by omega : ¬ x = h.size)]

end ring

namespace ring

lemma goodBucket_length_lt {h : Heap} {l : RList} {ids : List Nat}
    (hg : goodBucket h l ids) : ids.length < h.size + 1 := by
  obtain ⟨-, hnd, hbound⟩ := hg
  have hsub : (l.head :: l.tail :: ids).toFinset ⊆ Finset.range h.size := by
    intro x hx
    rw [List.mem_toFinset] at hx
    exact Finset.mem_range.2 (hbound x hx)
  have hcard := Finset.card_le_card hsub
  rw [List.toFinset_card_of_nodup hnd, Finset.card_range] at hcard
  simp only [List.length_cons] at hcard
  omega

end ring

/-- **C8** (confirmed): build a bucket (`make_list`, on any starting heap
and with any `deadline`), push any sequence of values with
`add_to_front`, then drain it with `consume`: the drain succeeds and
yields exactly one entry per pushed value, in most-recently-inserted-first
(LIFO) order; each entry's instrumentation flag records that the yielded
cell had both pointers `None` — i.e. was unlinked — at the moment it was
yielded; and afterwards the bucket is empty (`head.successor is tail`). -/
theorem C8_drain_is_lifo_unlinks_and_empties (h0 : ring.Heap) (dl : Int)
    (vs : List Nat) :
    ∃ hf : ring.Heap,
      ring.RList.consume (ring.make_list h0 dl).2
          (ring.RList.pushAll (ring.make_list h0 dl).2
            (ring.make_list h0 dl).1 vs) =
        some (vs.reverse.map (fun v => (some v, true)), hf) ∧
      ring.RList.isempty (ring.make_list h0 dl).2 hf = true := by
  obtain ⟨new, hgood, hvals, -⟩ :=
    ring.pushAll_spec vs (ring.make_list h0 dl).1 (ring.make_list h0 dl).2 []
      (ring.make_list_goodBucket h0 dl)
  rw [List.append_nil] at hgood
  have hlen : new.length <
      (ring.RList.pushAll (ring.make_list h0 dl).2
        (ring.make_list h0 dl).1 vs).size + 1 :=
    ring.goodBucket_length_lt hgood
  obtain ⟨hchain, hnd, hbound⟩ := hgood
  obtain ⟨hf, heq, hch, hnulls, hout, hsz2⟩ :=
    ring.consumeAux_drain new
      (ring.RList.pushAll (ring.make_list h0 dl).2 (ring.make_list h0 dl).1 vs)
      (ring.make_list h0 dl).2.head (ring.make_list h0 dl).2.tail
      ((ring.RList.pushAll (ring.make_list h0 dl).2
        (ring.make_list h0 dl).1 vs).size + 1)
      hchain hnd hlen
  refine ⟨hf, ?_, ?_⟩
  · rw [show ring.RList.consume (ring.make_list h0 dl).2
        (ring.RList.pushAll (ring.make_list h0 dl).2
          (ring.make_list h0 dl).1 vs) =
        ring.consumeAux
          ((ring.RList.pushAll (ring.make_list h0 dl).2
            (ring.make_list h0 dl).1 vs).size + 1)
          (ring.RList.pushAll (ring.make_list h0 dl).2
            (ring.make_list h0 dl).1 vs)
          (new.headD (ring.make_list h0 dl).2.tail)
          (ring.make_list h0 dl).2.tail from by
      unfold ring.RList.consume
      rw [ring.isChain_head_succ hchain]]
    rw [heq]
    have hpair : new.map (fun c =>
        (((ring.RList.pushAll (ring.make_list h0 dl).2
          (ring.make_list h0 dl).1 vs).cells c).value, true)) =
        vs.reverse.map (fun v => (some v, true)) := by
      rw [show (fun c =>
          (((ring.RList.pushAll (ring.make_list h0 dl).2
            (ring.make_list h0 dl).1 vs).cells c).value, true)) =
          (fun o => (o, true)) ∘ (fun c =>
            ((ring.RList.pushAll (ring.make_list h0 dl).2
              (ring.make_list h0 dl).1 vs).cells c).value) from rfl]
      rw [← List.map_map, hvals, List.map_map]
      rfl
    rw [hpair]
  · have := hch.1
    simp [ring.RList.isempty, this]

/-- **C10** (confirmed, implicit claim): calling `_Cell.remove` on a cell
whose `successor` and `predecessor` are already `None` leaves the entire
heap — the cell itself and every ring — literally unchanged, and
consequently `remove` is idempotent: a double unlink can never corrupt a
bucket, despite the spec declaring it undefined. -/
theorem C10_double_unlink_is_noop :
    (∀ (h : ring.Heap) (c : Nat),
        (h.cells c).successor = none → (h.cells c).predecessor = none →
        ring.Cell.remove h c = h) ∧
    (∀ (h : ring.Heap) (c : Nat),
        ring.Cell.remove (ring.Cell.remove h c) c = ring.Cell.remove h c) := by
  have base : ∀ (h : ring.Heap) (c : Nat),
      (h.cells c).successor = none → (h.cells c).predecessor = none →
      ring.Cell.remove h c = h := by
    intro h c hs hp
    simp only [ring.Cell.remove, hp, hs]
    apply ring.heap_ext
    · rfl
    · intro j
      simp only [ring.updCell]
      by_cases hj : j = c
      · subst hj
        simp only [if_pos rfl]
        rcases hc : h.cells j with ⟨v, sc, pr⟩
        rw [hc] at hs hp
        dsimp only [] at hs hp
        subst hs
        subst hp
        rfl
      · simp [hj]
  exact ⟨base, fun h c =>
    base _ _ (ring.remove_nulls_self h c).1 (ring.remove_nulls_self h c).2⟩

/-- Witness for `C10_double_unlink_is_noop` at a concrete one-cell heap
whose cell `0` is unlinked; both hypotheses are discharged by `rfl`. -/
theorem C10_witness :
    ring.Cell.remove ⟨1, fun _ => (⟨some 7, none, none⟩ : ring.Cell)⟩ 0 =
      (⟨1, fun _ => (⟨some 7, none, none⟩ : ring.Cell)⟩ : ring.Heap) :=
  C10_double_unlink_is_noop.1 ⟨1, fun _ => ⟨some 7, none, none⟩⟩ 0 rfl rfl

namespace reent

/-!
### Reentrant model of `timing_wheel.TimingWheel.tick`

Claim C2 is about what an action may do *while it is being fired*, so
here actions are not opaque: they are commands interpreted against the
wheel mid-drain.  The model mirrors the Python control flow of `tick`
precisely:

* the bucket being drained has been `popleft`-ed, so a reentrant `add`
  indexes a deque of length `len - 1`;
* `consume` saves `next_cell = cell.successor` *before* yielding, so a
  reentrant `remove` of the very next pending cell unlinks it but the
  traversal still visits it (its action fires and its deferred
  `del self._actions[request_id]` then raises `KeyError`); a remove of a
  later pending cell splices it out and it is skipped;
* `del self._actions[request_id]` runs *after* the action returns, and
  raises `KeyError` when the id is gone.

Errors abort the call like a Python exception; the log of instrumentation
records collected so far is kept.
-/

/-- What a fired action may reentrantly do to its own wheel. -/
inductive RAct where
  | nop
  | rem (rid : Nat)
  | addNop (interval : Int)
deriving Repr, DecidableEq

structure RBucket where
  deadline : Int
  entries : List (Nat × RAct)
deriving Repr, DecidableEq

structure RState where
  maxInterval : Nat
  time : Int
  lastId : Nat
  schedule : List RBucket
  actions : List Nat
deriving Repr, DecidableEq

inductive RErr where
  | keyError
  | indexError
  | assertionError
deriving Repr, DecidableEq

/-- `TimingWheel.add` on the reentrant state — same statement order as the
abstract model; the deque bound is the *current* schedule length (one
shorter during a drain, exactly as Python's `self._schedule[interval]`
sees it). -/
def addR (w : RState) (interval : Int) (act : RAct) : RState × Option Nat :=
  if -(w.schedule.length : Int) ≤ interval ∧ interval < (w.schedule.length : Int) then
    let idx : Nat :=
      (if interval < 0 then (w.schedule.length : Int) + interval else interval).toNat
    ({ w with
        lastId := w.lastId + 1
        schedule := w.schedule.set idx
          ⟨w.time + interval,
           (w.lastId + 1, act) :: (w.schedule.getD idx ⟨0, []⟩).entries⟩
        actions := (w.lastId + 1) :: w.actions }, some (w.lastId + 1))
  else
    ({ w with lastId := w.lastId + 1 }, none)

/-- `TimingWheel.remove` invoked from inside a drain: besides the map and
the buckets still in the deque, it may unlink a cell of the bucket being
drained, whose still-linked remainder is `pending`.  `consume` has
already saved the head of `pending` as `next_cell`, so unlinking that
precise cell does not stop it from being visited; any later pending cell
is spliced out of the traversal. -/
def removeR (s : RState) (pending : List (Nat × RAct)) (rid : Nat) :
    RState × List (Nat × RAct) :=
  if rid ∈ s.actions then
    let s' : RState :=
      { s with
          actions := s.actions.filter (fun a => a ≠ rid)
          schedule := s.schedule.map
            (fun b => ⟨b.deadline, b.entries.filter (fun e => e.1 ≠ rid)⟩) }
    match pending with
    | [] => (s', pending)
    | p0 :: _ =>
        if p0.1 = rid then (s', pending)
        else (s', pending.filter (fun e => e.1 ≠ rid))
  else
    (s, pending)

/-- Interpret one fired action against the in-drain state. -/
def runAct (s : RState) (pending : List (Nat × RAct)) :
    RAct → Except RErr (RState × List (Nat × RAct))
  | RAct.nop => Except.ok (s, pending)
  | RAct.rem rid => Except.ok (removeR s pending rid)
  | RAct.addNop d =>
      match addR s d RAct.nop with
      | (s', some _) => Except.ok (s', pending)
      | (_, none) => Except.error RErr.indexError

/-- Instrumentation record taken at the moment an action is invoked:
was its request id still in the `_actions` map, and was its cell still
linked in a bucket (either among the drained bucket's remaining cells or
anywhere in the deque)? -/
structure Rec where
  rid : Nat
  inMap : Bool
  inBucket : Bool
deriving Repr, DecidableEq

/-- All request ids currently linked in the deque's buckets. -/
def allIds (s : RState) : List Nat :=
  s.schedule.flatMap (fun b => b.entries.map Prod.fst)

/-- The inner `for (request_id, action) in timing_list.consume()` loop:
record, fire (interpret) the action, then `del self._actions[request_id]`
(`KeyError` if the action removed its own id).  Fuel is the pending
length; reentrant removes can only shorten the pending list, never extend
it, so the fuel never runs out in any reachable call. -/
def drainLoop : Nat → RState → List (Nat × RAct) → List Rec →
    List Rec × Except RErr RState
  | _, s, [], log => (log, Except.ok s)
  | 0, s, _ :: _, log => (log, Except.ok s)
  | fuel + 1, s, (rid, a) :: rest, log =>
      let rec0 : Rec :=
        ⟨rid, decide (rid ∈ s.actions),
          decide (rid ∈ rest.map Prod.fst) || decide (rid ∈ allIds s)⟩
      match runAct s rest a with
      | Except.error e => (log ++ [rec0], Except.error e)
      | Except.ok (s', rest') =>
          if rid ∈ s'.actions then
            drainLoop fuel
              { s' with actions := s'.actions.filter (fun x => x ≠ rid) }
              rest' (log ++ [rec0])
          else
            (log ++ [rec0], Except.error RErr.keyError)

/-- The outer `for i in range(offset + 1)` loop of `tick`: `popleft` the
front bucket, drain it, then append it emptied with `deadline = i`. -/
def tickLoopR : List Nat → RState → List Rec → List Rec × Except RErr RState
  | [], s, log => (log, Except.ok s)
  | i :: is, s, log =>
      match s.schedule with
      | [] => tickLoopR is s log
      | b :: rest =>
          match drainLoop b.entries.length { s with schedule := rest }
              b.entries log with
          | (log', Except.error e) => (log', Except.error e)
          | (log', Except.ok s2) =>
              tickLoopR is
                { s2 with schedule := s2.schedule ++ [⟨(i : Int), []⟩] } log'

/-- `TimingWheel.tick(time)` with command actions, instrumented.  The
failing `assert` is `assertionError`; on success the final statement sets
`_time`. -/
def tickR (w : RState) (t : Int) : List Rec × Except RErr RState :=
  let offset := t - w.time
  if 0 ≤ offset ∧ offset < (w.maxInterval : Int) then
    match tickLoopR (List.range (offset.toNat + 1)) w [] with
    | (log, Except.error e) => (log, Except.error e)
    | (log, Except.ok s) => (log, Except.ok { s with time := t })
  else
    ([], Except.error RErr.assertionError)

/-- Fresh reentrant wheel, like `mkWheel`. -/
def mkR (maxInterval : Nat) (time : Int) : RState :=
  { maxInterval := maxInterval
    time := time
    lastId := 0
    schedule := (List.range maxInterval).map
      (fun i : Nat => (⟨(i : Int), []⟩ : RBucket))
    actions := [] }

/-- A burst of `add` calls on the reentrant wheel. -/
def addAllR (w : RState) : List (Int × RAct) → RState
  | [] => w
  | (d, a) :: rest => addAllR (addR w d a).1 rest

end reent

namespace reent

/-- Global well-formedness between drains: linked ids are distinct and
bounded by the id counter. -/
def InvG (s : RState) : Prop :=
  (allIds s).Nodup ∧ ∀ i ∈ allIds s, i ≤ s.lastId

/-- In-drain well-formedness: the still-pending ids of the drained bucket
together with all linked ids are distinct and bounded. -/
def InvD (s : RState) (pending : List (Nat × RAct)) : Prop :=
  (pending.map Prod.fst ++ allIds s).Nodup ∧
  ∀ i ∈ pending.map Prod.fst ++ allIds s, i ≤ s.lastId

lemma ids_filter_sublist (sch : List RBucket) (rid : Nat) :
    ((sch.map (fun b =>
        (⟨b.deadline, b.entries.filter (fun e => e.1 ≠ rid)⟩ : RBucket))).flatMap
      (fun b => b.entries.map Prod.fst)).Sublist
      (sch.flatMap (fun b => b.entries.map Prod.fst)) := by
  induction sch with
  | nil => simp
  | cons b bs ih =>
    simp only [List.map_cons, List.flatMap_cons]
    exact List.Sublist.append (List.Sublist.map _ (List.filter_sublist _)) ih

lemma ids_set_cons_perm :
    ∀ (sch : List RBucket) (idx : Nat), idx < sch.length →
      ∀ (dl : Int) (e : Nat × RAct),
      ((sch.set idx ⟨dl, e :: (sch.getD idx ⟨0, []⟩).entries⟩).flatMap
          (fun b => b.entries.map Prod.fst)).Perm
        (e.1 :: sch.flatMap (fun b => b.entries.map Prod.fst)) := by
  intro sch
  induction sch with
  | nil =>
    intro idx h
    simp at h
  | cons b bs ih =>
    intro idx h dl e
    cases idx with
    | zero =>
      simp only [List.set_cons_zero, List.getD_cons_zero, List.flatMap_cons,
        List.map_cons]
      exact List.Perm.refl _
    | succ n =>
      simp only [List.set_cons_succ, List.getD_cons_succ, List.flatMap_cons]
      have hn : n < bs.length := by simpa using h
      exact (List.Perm.append_left _ (ih n hn dl e)).trans List.perm_middle

lemma addR_ids_perm (w : RState) (d : Int) (a : RAct)
    (hv : -(w.schedule.length : Int) ≤ d ∧ d < (w.schedule.length : Int)) :
    (allIds (addR w d a).1).Perm ((w.lastId + 1) :: allIds w) ∧
    (addR w d a).1.lastId = w.lastId + 1 ∧
    (addR w d a).1.schedule.length = w.schedule.length := by
  unfold addR
  rw [if_pos hv]
  refine ⟨?_, rfl, by simp⟩
  unfold allIds
  dsimp only []
  apply ids_set_cons_perm
  by_cases hd : d < 0
  · rw [if_pos hd]
    omega
  · rw [if_neg hd]
    omega

lemma addR_invalid (w : RState) (d : Int) (a : RAct)
    (hv : ¬ (-(w.schedule.length : Int) ≤ d ∧ d < (w.schedule.length : Int))) :
    (addR w d a).1 = { w with lastId := w.lastId + 1 } := by
  unfold addR
  rw [if_neg hv]

end reent

namespace reent

lemma addR_snd (w : RState) (d : Int) (a : RAct) :
    (addR w d a).2 =
      if -(w.schedule.length : Int) ≤ d ∧ d < (w.schedule.length : Int) then
        some (w.lastId + 1)
      else none := by
  unfold addR
  split
  · rfl
  · rfl

lemma runAct_preserves {s : RState} {rest : List (Nat × RAct)} {a : RAct}
    {s' : RState} {rest' : List (Nat × RAct)}
    (h : runAct s rest a = Except.ok (s', rest'))
    (hinv : InvD s rest) :
    InvD s' rest' ∧ s.lastId ≤ s'.lastId ∧
    s'.schedule.length = s.schedule.length := by
  cases a with
  | nop =>
    simp only [runAct, Except.ok.injEq, Prod.mk.injEq] at h
    obtain ⟨rfl, rfl⟩ := h
    exact ⟨hinv, le_refl _, rfl⟩
  | rem rid =>
    simp only [runAct, Except.ok.injEq] at h
    unfold removeR at h
    by_cases hm : rid ∈ s.actions
    · rw [if_pos hm] at h
      have key : ∀ R : List (Nat × RAct), R.Sublist rest →
          InvD { s with
              actions := s.actions.filter (fun a => a ≠ rid)
              schedule := s.schedule.map
                (fun b => ⟨b.deadline, b.entries.filter (fun e => e.1 ≠ rid)⟩) } R := by
        intro R hR
        have hsub : (R.map Prod.fst ++
            ((s.schedule.map (fun b =>
              (⟨b.deadline, b.entries.filter (fun e => e.1 ≠ rid)⟩ : RBucket))).flatMap
                (fun b => b.entries.map Prod.fst))).Sublist
            (rest.map Prod.fst ++ allIds s) :=
          List.Sublist.append (List.Sublist.map _ hR) (ids_filter_sublist s.schedule rid)
        constructor
        · exact List.Nodup.sublist hsub hinv.1
        · intro i hi
          exact hinv.2 i (hsub.mem hi)
      cases rest with
      | nil =>
        simp only [Prod.mk.injEq] at h
        obtain ⟨rfl, rfl⟩ := h
        exact ⟨key [] (List.nil_sublist _), le_refl _, by simp⟩
      | cons p0 prest =>
        simp only [] at h
        by_cases hp0 : p0.1 = rid
        · rw [if_pos hp0] at h
          simp only [Prod.mk.injEq] at h
          obtain ⟨rfl, rfl⟩ := h
          exact ⟨key _ (List.Sublist.refl _), le_refl _, by simp⟩
        · rw [if_neg hp0] at h
          simp only [Prod.mk.injEq] at h
          obtain ⟨rfl, rfl⟩ := h
          exact ⟨key _ (List.filter_sublist _), le_refl _, by simp⟩
    · rw [if_neg hm] at h
      simp only [Prod.mk.injEq] at h
      obtain ⟨rfl, rfl⟩ := h
      exact ⟨hinv, le_refl _, rfl⟩
  | addNop d =>
    simp only [runAct] at h
    rcases haddr : addR s d RAct.nop with ⟨s1, r⟩
    rw [haddr] at h
    cases r with
    | none => exact absurd h (by simp)
    | some k =>
      simp only [Except.ok.injEq, Prod.mk.injEq] at h
      obtain ⟨rfl, rfl⟩ := h
      have hv : -(s.schedule.length : Int) ≤ d ∧ d < (s.schedule.length : Int) := by
        by_contra hv
        have hs2 := addR_snd s d RAct.nop
        rw [if_neg hv, haddr] at hs2
        simp at hs2
      have hperm := addR_ids_perm s d RAct.nop hv
      rw [haddr] at hperm
      obtain ⟨hperm, hlast, hlen⟩ := hperm
      dsimp only [] at hperm hlast hlen
      have hfresh : ¬ (s.lastId + 1) ∈ (rest.map Prod.fst ++ allIds s) := by
        intro hmem
        have := hinv.2 _ hmem
        omega
      have hperm2 : (rest.map Prod.fst ++ allIds s1).Perm
          ((s.lastId + 1) :: (rest.map Prod.fst ++ allIds s)) :=
        (List.Perm.append_left _ hperm).trans List.perm_middle
      refine ⟨⟨?_, ?_⟩, by omega, hlen⟩
      · exact hperm2.nodup_iff.2 (List.nodup_cons.2 ⟨hfresh, hinv.1⟩)
      · intro i hi
        have := hperm2.mem_iff.1 hi
        rw [hlast]
        rcases List.mem_cons.1 this with rfl | hold
        · omega
        · have := hinv.2 i hold
          omega

end reent

namespace reent

lemma drainLoop_spec :
    ∀ (fuel : Nat) (pending : List (Nat × RAct)) (s : RState) (log : List Rec),
      InvD s pending →
      (∀ r ∈ (drainLoop fuel s pending log).1, r ∈ log ∨ r.inBucket = false) ∧
      (∀ s2, (drainLoop fuel s pending log).2 = Except.ok s2 →
        InvG s2 ∧ s.lastId ≤ s2.lastId ∧
        s2.schedule.length = s.schedule.length) := by
  intro fuel
  induction fuel with
  | zero =>
    intro pending s log hinv
    have hg : InvG s := ⟨(List.nodup_append.1 hinv.1).2.1,
      fun i hi => hinv.2 i (List.mem_append_right _ hi)⟩
    cases pending with
    | nil =>
      refine ⟨fun r hr => Or.inl hr, fun s2 h2 => ?_⟩
      simp only [drainLoop, Except.ok.injEq] at h2
      subst h2
      exact ⟨hg, le_refl _, rfl⟩
    | cons p ps =>
      refine ⟨fun r hr => Or.inl hr, fun s2 h2 => ?_⟩
      simp only [drainLoop, Except.ok.injEq] at h2
      subst h2
      exact ⟨hg, le_refl _, rfl⟩
  | succ f ih =>
    intro pending s log hinv
    have hg : InvG s := ⟨(List.nodup_append.1 hinv.1).2.1,
      fun i hi => hinv.2 i (List.mem_append_right _ hi)⟩
    cases pending with
    | nil =>
      refine ⟨fun r hr => Or.inl hr, fun s2 h2 => ?_⟩
      simp only [drainLoop, Except.ok.injEq] at h2
      subst h2
      exact ⟨hg, le_refl _, rfl⟩
    | cons p rest =>
      obtain ⟨rid, a⟩ := p
      have hcons := hinv.1
      simp only [List.map_cons, List.cons_append] at hcons
      have hnotin : ¬ rid ∈ (rest.map Prod.fst ++ allIds s) :=
        (List.nodup_cons.1 hcons).1
      have hflag :
          (decide (rid ∈ rest.map Prod.fst) || decide (rid ∈ allIds s)) = false := by
        simp only [Bool.or_eq_false_iff, decide_eq_false_iff_not]
        exact ⟨fun h => hnotin (List.mem_append_left _ h),
          fun h => hnotin (List.mem_append_right _ h)⟩
      have htail : InvD s rest :=
        ⟨(List.nodup_cons.1 hcons).2,
          fun i hi => hinv.2 i (by
            simp only [List.map_cons, List.cons_append]
            exact List.mem_cons_of_mem _ hi)⟩
      simp only [drainLoop]
      cases hrun : runAct s rest a with
      | error e =>
        dsimp only []
        refine ⟨fun r hr => ?_, fun s2 h2 => by simp at h2⟩
        rcases List.mem_append.1 hr with hl | hr0
        · exact Or.inl hl
        · right
          have : r = (⟨rid, decide (rid ∈ s.actions),
              decide (rid ∈ rest.map Prod.fst) || decide (rid ∈ allIds s)⟩ : Rec) := by
            simpa using hr0
          rw [this]
          exact hflag
      | ok p =>
        obtain ⟨s', rest'⟩ := p
        dsimp only []
        obtain ⟨hinv', hlast, hlen⟩ := runAct_preserves hrun htail
        by_cases hmem : rid ∈ s'.actions
        · rw [if_pos hmem]
          have hinvF : InvD
              { s' with actions := s'.actions.filter (fun x => x ≠ rid) } rest' :=
            hinv'
          obtain ⟨hrec, hok⟩ := ih rest'
            { s' with actions := s'.actions.filter (fun x => x ≠ rid) }
            (log ++ [⟨rid, decide (rid ∈ s.actions),
              decide (rid ∈ rest.map Prod.fst) || decide (rid ∈ allIds s)⟩]) hinvF
          refine ⟨fun r hr => ?_, fun s2 h2 => ?_⟩
          · rcases hrec r hr with hl | hfl
            · rcases List.mem_append.1 hl with hl0 | hr0
              · exact Or.inl hl0
              · right
                have : r = (⟨rid, decide (rid ∈ s.actions),
                    decide (rid ∈ rest.map Prod.fst) ||
                      decide (rid ∈ allIds s)⟩ : Rec) := by
                  simpa using hr0
                rw [this]
                exact hflag
            · exact Or.inr hfl
          · obtain ⟨hg2, hle2, hlen2⟩ := hok s2 h2
            refine ⟨hg2, ?_, ?_⟩
            · exact le_trans hlast hle2
            · exact hlen2.trans hlen
        · rw [if_neg hmem]
          refine ⟨fun r hr => ?_, fun s2 h2 => by simp at h2⟩
          rcases List.mem_append.1 hr with hl | hr0
          · exact Or.inl hl
          · right
            have : r = (⟨rid, decide (rid ∈ s.actions),
                decide (rid ∈ rest.map Prod.fst) || decide (rid ∈ allIds s)⟩ : Rec) := by
              simpa using hr0
            rw [this]
            exact hflag

end reent

namespace reent

lemma tickLoopR_spec :
    ∀ (is : List Nat) (s : RState) (log : List Rec), InvG s →
      ∀ r ∈ (tickLoopR is s log).1, r ∈ log ∨ r.inBucket = false := by
  intro is
  induction is with
  | nil =>
    intro s log _ r hr
    exact Or.inl hr
  | cons i is ih =>
    intro s log hg r
    simp only [tickLoopR]
    cases hsch : s.schedule with
    | nil =>
      dsimp only []
      exact ih s log hg r
    | cons b rest =>
      dsimp only []
      have hids : allIds s = b.entries.map Prod.fst ++
          allIds { s with schedule := rest } := by
        unfold allIds
        rw [hsch]
        simp [List.flatMap_cons]
      have hinvd : InvD { s with schedule := rest } b.entries := by
        constructor
        · rw [← hids]
          exact hg.1
        · intro j hj
          rw [← hids] at hj
          exact hg.2 j hj
      obtain ⟨hrec, hok⟩ := drainLoop_spec b.entries.length b.entries
        { s with schedule := rest } log hinvd
      cases hdr : drainLoop b.entries.length { s with schedule := rest }
          b.entries log with
      | mk log2 res =>
        rw [hdr] at hrec hok
        cases res with
        | error e =>
          dsimp only []
          intro hr
          exact hrec r hr
        | ok s2 =>
          dsimp only []
          obtain ⟨hg2, _hle, _hlen⟩ := hok s2 rfl
          have hids2 : allIds
              { s2 with schedule := s2.schedule ++ [(⟨(i : Int), []⟩ : RBucket)] } =
              allIds s2 := by
            unfold allIds
            simp
          have hg2' : InvG
              { s2 with schedule := s2.schedule ++ [(⟨(i : Int), []⟩ : RBucket)] } := by
            constructor
            · rw [hids2]
              exact hg2.1
            · intro j hj
              rw [hids2] at hj
              exact hg2.2 j hj
          intro hr
          rcases ih _ log2 hg2' r hr with hl | hfl
          · exact hrec r hl
          · exact Or.inr hfl

end reent

namespace reent

lemma addR_invG (w : RState) (d : Int) (a : RAct) (h : InvG w) :
    InvG (addR w d a).1 := by
  by_cases hv : -(w.schedule.length : Int) ≤ d ∧ d < (w.schedule.length : Int)
  · obtain ⟨hperm, hlast, _⟩ := addR_ids_perm w d a hv
    constructor
    · apply hperm.nodup_iff.2
      apply List.nodup_cons.2
      refine ⟨fun hmem => ?_, h.1⟩
      have := h.2 _ hmem
      omega
    · intro i hi
      rw [hlast]
      rcases List.mem_cons.1 (hperm.mem_iff.1 hi) with rfl | hold
      · omega
      · have := h.2 i hold
        omega
  · rw [addR_invalid w d a hv]
    constructor
    · exact h.1
    · intro i hi
      have := h.2 i hi
      show i ≤ w.lastId + 1
      omega

lemma addAllR_invG : ∀ (adds : List (Int × RAct)) (w : RState), InvG w →
    InvG (addAllR w adds) := by
  intro adds
  induction adds with
  | nil =>
    intro w h
    exact h
  | cons p rest ih =>
    intro w h
    obtain ⟨d, a⟩ := p
    exact ih _ (addR_invG w d a h)

lemma mkR_allIds (N : Nat) (c : Int) : allIds (mkR N c) = [] := by
  unfold allIds mkR
  simp

lemma mkR_invG (N : Nat) (c : Int) : InvG (mkR N c) := by
  constructor
  · rw [mkR_allIds]
    exact List.nodup_nil
  · intro i hi
    rw [mkR_allIds] at hi
    simp at hi

end reent

namespace reent

lemma tickR_records_inBucket (w : RState) (t : Int) (h : InvG w) :
    ∀ r ∈ (tickR w t).1, r.inBucket = false := by
  unfold tickR
  simp only []
  by_cases hc : 0 ≤ t - w.time ∧ t - w.time < (w.maxInterval : Int)
  · rw [if_pos hc]
    have hspec := tickLoopR_spec (List.range ((t - w.time).toNat + 1)) w [] h
    cases hdr : tickLoopR (List.range ((t - w.time).toNat + 1)) w [] with
    | mk log res =>
      rw [hdr] at hspec
      cases res with
      | error e =>
        dsimp only []
        intro r hr
        rcases hspec r hr with hl | hfl
        · simp at hl
        · exact hfl
      | ok s2 =>
        dsimp only []
        intro r hr
        rcases hspec r hr with hl | hfl
        · simp at hl
        · exact hfl
  · rw [if_neg hc]
    intro r hr
    simp at hr

end reent

namespace reent

/-- No scheduled action is reentrant. -/
def NopState (s : RState) : Prop :=
  ∀ b ∈ s.schedule, ∀ e ∈ b.entries, e.2 = RAct.nop

lemma drainLoop_nop_spec :
    ∀ (fuel : Nat) (pending : List (Nat × RAct)) (s : RState) (log : List Rec),
      (∀ e ∈ pending, e.2 = RAct.nop) →
      (pending.map Prod.fst).Nodup →
      (∀ i ∈ pending.map Prod.fst, i ∈ s.actions) →
      (∀ r ∈ (drainLoop fuel s pending log).1, r ∈ log ∨ r.inMap = true) ∧
      (∀ s2, (drainLoop fuel s pending log).2 = Except.ok s2 →
        s2.schedule = s.schedule ∧ s2.lastId = s.lastId ∧
        ∀ i ∈ s.actions, ¬ i ∈ pending.map Prod.fst → i ∈ s2.actions) := by
  intro fuel
  induction fuel with
  | zero =>
    intro pending s log _ _ _
    cases pending with
    | nil =>
      refine ⟨fun r hr => Or.inl hr, fun s2 h2 => ?_⟩
      simp only [drainLoop, Except.ok.injEq] at h2
      subst h2
      exact ⟨rfl, rfl, fun i hi _ => hi⟩
    | cons p ps =>
      refine ⟨fun r hr => Or.inl hr, fun s2 h2 => ?_⟩
      simp only [drainLoop, Except.ok.injEq] at h2
      subst h2
      exact ⟨rfl, rfl, fun i hi _ => hi⟩
  | succ f ih =>
    intro pending s log hnop hnd hsub
    cases pending with
    | nil =>
      refine ⟨fun r hr => Or.inl hr, fun s2 h2 => ?_⟩
      simp only [drainLoop, Except.ok.injEq] at h2
      subst h2
      exact ⟨rfl, rfl, fun i hi _ => hi⟩
    | cons p rest =>
      obtain ⟨rid, a⟩ := p
      have ha : a = RAct.nop := hnop (rid, a) (List.mem_cons_self _ _)
      subst ha
      have hin : rid ∈ s.actions := by
        apply hsub
        simp
      have hndr : (rest.map Prod.fst).Nodup := by
        simp only [List.map_cons] at hnd
        exact (List.nodup_cons.1 hnd).2
      have hridnr : ¬ rid ∈ rest.map Prod.fst := by
        simp only [List.map_cons] at hnd
        exact (List.nodup_cons.1 hnd).1
      simp only [drainLoop, runAct]
      rw [if_pos hin]
      obtain ⟨hrec, hok⟩ := ih rest
        { s with actions := s.actions.filter (fun x => x ≠ rid) }
        (log ++ [⟨rid, decide (rid ∈ s.actions),
          decide (rid ∈ rest.map Prod.fst) || decide (rid ∈ allIds s)⟩])
        (fun e he => hnop e (List.mem_cons_of_mem _ he)) hndr
        (fun i hi => by
          show i ∈ s.actions.filter (fun x => x ≠ rid)
          apply List.mem_filter.2
          refine ⟨hsub i (by simp [hi]), ?_⟩
          simp only [decide_eq_true_eq]
          intro hteq
          subst hteq
          exact hridnr hi)
      refine ⟨fun r hr => ?_, fun s2 h2 => ?_⟩
      · rcases hrec r hr with hl | hm
        · rcases List.mem_append.1 hl with hl0 | hr0
          · exact Or.inl hl0
          · right
            have : r = (⟨rid, decide (rid ∈ s.actions),
                decide (rid ∈ rest.map Prod.fst) || decide (rid ∈ allIds s)⟩ : Rec) := by
              simpa using hr0
            rw [this]
            simp [hin]
        · exact Or.inr hm
      · obtain ⟨hsch2, hlast2, hact2⟩ := hok s2 h2
        refine ⟨hsch2, hlast2, fun i hi hni => ?_⟩
        have hine : i ≠ rid := by
          intro hteq
          subst hteq
          exact hni (by simp)
        have hnir : ¬ i ∈ rest.map Prod.fst := by
          intro hr
          exact hni (by simp [hr])
        apply hact2 i
        · show i ∈ s.actions.filter (fun x => x ≠ rid)
          apply List.mem_filter.2
          exact ⟨hi, by simp [hine]⟩
        · exact hnir

end reent

namespace reent

lemma tickLoopR_nop_spec :
    ∀ (is : List Nat) (s : RState) (log : List Rec),
      NopState s → (allIds s).Nodup → (∀ i ∈ allIds s, i ∈ s.actions) →
      ∀ r ∈ (tickLoopR is s log).1, r ∈ log ∨ r.inMap = true := by
  intro is
  induction is with
  | nil =>
    intro s log _ _ _ r hr
    exact Or.inl hr
  | cons i is ih =>
    intro s log hnop hnd hsub r
    simp only [tickLoopR]
    cases hsch : s.schedule with
    | nil =>
      dsimp only []
      exact ih s log hnop hnd hsub r
    | cons b rest =>
      dsimp only []
      have hids : allIds s = b.entries.map Prod.fst ++
          allIds { s with schedule := rest } := by
        unfold allIds
        rw [hsch]
        simp [List.flatMap_cons]
      rw [hids] at hnd
      have hdisj := List.nodup_append.1 hnd
      obtain ⟨hrec, hok⟩ := drainLoop_nop_spec b.entries.length b.entries
        { s with schedule := rest } log
        (fun e he => hnop b (by rw [hsch]; exact List.mem_cons_self _ _) e he)
        hdisj.1
        (fun j hj => hsub j (by rw [hids]; exact List.mem_append_left _ hj))
      cases hdr : drainLoop b.entries.length { s with schedule := rest }
          b.entries log with
      | mk log2 res =>
        rw [hdr] at hrec hok
        cases res with
        | error e =>
          dsimp only []
          intro hr
          exact hrec r hr
        | ok s2 =>
          dsimp only []
          obtain ⟨hsch2, _hlast2, hact2⟩ := hok s2 rfl
          have hids2 : allIds
              { s2 with schedule := s2.schedule ++ [(⟨(i : Int), []⟩ : RBucket)] } =
              allIds { s with schedule := rest } := by
            unfold allIds
            rw [hsch2]
            simp
          have hnop2 : NopState
              { s2 with schedule := s2.schedule ++ [(⟨(i : Int), []⟩ : RBucket)] } := by
            intro b' hb' e he
            rcases List.mem_append.1 hb' with hb0 | hb1
            · rw [hsch2] at hb0
              exact hnop b' (by rw [hsch]; exact List.mem_cons_of_mem _ hb0) e he
            · have : b' = (⟨(i : Int), []⟩ : RBucket) := by simpa using hb1
              rw [this] at he
              simp at he
          have hnd2 : (allIds
              { s2 with schedule := s2.schedule ++ [(⟨(i : Int), []⟩ : RBucket)] }).Nodup := by
            rw [hids2]
            exact hdisj.2.1
          have hsub2 : ∀ j ∈ allIds
              { s2 with schedule := s2.schedule ++ [(⟨(i : Int), []⟩ : RBucket)] },
              j ∈ ({ s2 with schedule := s2.schedule ++
                [(⟨(i : Int), []⟩ : RBucket)] } : RState).actions := by
            intro j hj
            rw [hids2] at hj
            show j ∈ s2.actions
            apply hact2 j
            · exact hsub j (by rw [hids]; exact List.mem_append_right _ hj)
            · intro hjb
              exact hdisj.2.2 hjb hj
          intro hr
          rcases ih _ log2 hnop2 hnd2 hsub2 r hr with hl | hm
          · exact hrec r hl
          · exact Or.inr hm

end reent

namespace reent

lemma addR_nop_step (w : RState) (d : Int)
    (h1 : NopState w) (h2 : (allIds w).Nodup) (h3 : ∀ i ∈ allIds w, i ≤ w.lastId)
    (h4 : ∀ i ∈ allIds w, i ∈ w.actions) :
    NopState (addR w d RAct.nop).1 ∧ (allIds (addR w d RAct.nop).1).Nodup ∧
    (∀ i ∈ allIds (addR w d RAct.nop).1, i ≤ (addR w d RAct.nop).1.lastId) ∧
    (∀ i ∈ allIds (addR w d RAct.nop).1, i ∈ (addR w d RAct.nop).1.actions) := by
  have hg := addR_invG w d RAct.nop ⟨h2, h3⟩
  by_cases hv : -(w.schedule.length : Int) ≤ d ∧ d < (w.schedule.length : Int)
  · obtain ⟨hperm, hlast, _⟩ := addR_ids_perm w d RAct.nop hv
    have hact : (addR w d RAct.nop).1.actions = (w.lastId + 1) :: w.actions := by
      unfold addR
      rw [if_pos hv]
    refine ⟨?_, hg.1, hg.2, ?_⟩
    · unfold addR
      rw [if_pos hv]
      dsimp only []
      intro b hb e he
      rcases List.mem_or_eq_of_mem_set hb with hmem | rfl
      · exact h1 b hmem e he
      · rcases List.mem_cons.1 he with rfl | he'
        · rfl
        · have hidx : (if d < 0 then (w.schedule.length : Int) + d else d).toNat
              < w.schedule.length := by
            by_cases hd : d < 0
            · rw [if_pos hd]
              omega
            · rw [if_neg hd]
              omega
          have hgd : w.schedule.getD
              (if d < 0 then (w.schedule.length : Int) + d else d).toNat
              ⟨0, []⟩ ∈ w.schedule := by
            rw [List.getD_eq_getElem w.schedule ⟨0, []⟩ hidx]
            exact List.getElem_mem hidx
          exact h1 _ hgd e he'
    · intro i hi
      rw [hact]
      rcases List.mem_cons.1 (hperm.mem_iff.1 hi) with rfl | hold
      · exact List.mem_cons_self _ _
      · exact List.mem_cons_of_mem _ (h4 i hold)
  · rw [addR_invalid w d RAct.nop hv] at hg ⊢
    exact ⟨h1, hg.1, hg.2, h4⟩

lemma addAllR_nop : ∀ (adds : List (Int × RAct)) (w : RState),
    (∀ p ∈ adds, p.2 = RAct.nop) →
    NopState w → (allIds w).Nodup → (∀ i ∈ allIds w, i ≤ w.lastId) →
    (∀ i ∈ allIds w, i ∈ w.actions) →
    NopState (addAllR w adds) ∧ (allIds (addAllR w adds)).Nodup ∧
    (∀ i ∈ allIds (addAllR w adds), i ≤ (addAllR w adds).lastId) ∧
    (∀ i ∈ allIds (addAllR w adds), i ∈ (addAllR w adds).actions) := by
  intro adds
  induction adds with
  | nil =>
    intro w _ h1 h2 h3 h4
    exact ⟨h1, h2, h3, h4⟩
  | cons p rest ih =>
    intro w hnop h1 h2 h3 h4
    obtain ⟨d, a⟩ := p
    have ha : a = RAct.nop := hnop (d, a) (List.mem_cons_self _ _)
    subst ha
    obtain ⟨g1, g2, g3, g4⟩ := addR_nop_step w d h1 h2 h3 h4
    exact ih _ (fun q hq => hnop q (List.mem_cons_of_mem _ hq)) g1 g2 g3 g4

lemma mkR_nopState (N : Nat) (c : Int) : NopState (mkR N c) := by
  intro b hb e he
  simp only [mkR, List.mem_map, List.mem_range] at hb
  obtain ⟨i, _, rfl⟩ := hb
  simp at he

lemma tickR_records_inMap (w : RState) (t : Int)
    (h1 : NopState w) (h2 : (allIds w).Nodup)
    (h4 : ∀ i ∈ allIds w, i ∈ w.actions) :
    ∀ r ∈ (tickR w t).1, r.inMap = true := by
  unfold tickR
  simp only []
  by_cases hc : 0 ≤ t - w.time ∧ t - w.time < (w.maxInterval : Int)
  · rw [if_pos hc]
    have hspec := tickLoopR_nop_spec (List.range ((t - w.time).toNat + 1)) w []
      h1 h2 h4
    cases hdr : tickLoopR (List.range ((t - w.time).toNat + 1)) w [] with
    | mk log res =>
      rw [hdr] at hspec
      cases res with
      | error e =>
        dsimp only []
        intro r hr
        rcases hspec r hr with hl | hm
        · simp at hl
        · exact hm
      | ok s2 =>
        dsimp only []
        intro r hr
        rcases hspec r hr with hl | hm
        · simp at hl
        · exact hm
  · rw [if_neg hc]
    intro r hr
    simp at hr

end reent

/-- Claim C2 (amended): in every `tick` on a wheel built by `add` calls, at
the moment each fired action is invoked its cell has already been unlinked
from its bucket (`inBucket = false`, the unlink happens in `consume` before
the yield) — but, contrary to the claim, its request id has NOT yet been
removed from the `_actions` map: the `del self._actions[request_id]` runs
only after the action returns, so whenever no action reentrantly mutates
the wheel, every fired action still sees its own id in the map
(`inMap = true`) at invocation. -/
theorem C2_unlink_before_map_removal_after :
    (∀ (N : Nat) (c t : Int) (adds : List (Int × reent.RAct)),
      ∀ r ∈ (reent.tickR (reent.addAllR (reent.mkR N c) adds) t).1,
        r.inBucket = false) ∧
    (∀ (N : Nat) (c t : Int) (adds : List (Int × reent.RAct)),
      (∀ p ∈ adds, p.2 = reent.RAct.nop) →
      ∀ r ∈ (reent.tickR (reent.addAllR (reent.mkR N c) adds) t).1,
        r.inMap = true) := by
  constructor
  · intro N c t adds
    exact reent.tickR_records_inBucket _ t
      (reent.addAllR_invG adds _ (reent.mkR_invG N c))
  · intro N c t adds hnop
    have h0 := reent.mkR_allIds N c
    obtain ⟨g1, g2, _, g4⟩ := reent.addAllR_nop adds (reent.mkR N c) hnop
      (reent.mkR_nopState N c)
      (by rw [h0]; exact List.nodup_nil)
      (by rw [h0]; intro i hi; simp at hi)
      (by rw [h0]; intro i hi; simp at hi)
    exact reent.tickR_records_inMap _ t g1 g2 g4

/-- Witness for C2 at a concrete run: wheel of capacity 2 built at time 0
with one non-reentrant delay-0 action; `tick(0)` fires it, and the record
taken at invocation shows the cell unlinked and the id still mapped. -/
theorem C2_witness :
    ((⟨1, true, false⟩ : reent.Rec) ∈
        (reent.tickR (reent.addAllR (reent.mkR 2 0) [((0 : Int), reent.RAct.nop)]) 0).1 ∧
      (⟨1, true, false⟩ : reent.Rec).inBucket = false) ∧
    ((∀ p ∈ [((0 : Int), reent.RAct.nop)], p.2 = reent.RAct.nop) ∧
      (⟨1, true, false⟩ : reent.Rec).inMap = true) := by
  constructor
  · exact ⟨by decide,
      C2_unlink_before_map_removal_after.1 2 0 0 [((0 : Int), reent.RAct.nop)]
        ⟨1, true, false⟩ (by decide)⟩
  · exact ⟨by decide,
      C2_unlink_before_map_removal_after.2 2 0 0 [((0 : Int), reent.RAct.nop)]
        (by decide) ⟨1, true, false⟩ (by decide)⟩

/-- Counterexample to C2's reentrancy guarantee: on a capacity-2 wheel at
time 0, a single delay-0 action that removes its own request id makes
`tick(0)` crash with `KeyError` — the id was still in `_actions` when the
action ran (the record shows `inMap = true`), the reentrant `remove`
deleted it, and the loop's own deferred `del self._actions[request_id]`
then fails. -/
theorem C2_counterexample_remove_own_id :
    (reent.tickR ((reent.addR (reent.mkR 2 0) 0 (reent.RAct.rem 1)).1) 0).2 =
      Except.error reent.RErr.keyError ∧
    (reent.tickR ((reent.addR (reent.mkR 2 0) 0 (reent.RAct.rem 1)).1) 0).1 =
      [⟨1, true, false⟩] := by
  exact ⟨rfl, rfl⟩
